import Mathlib

/-!
# polaris-go: weighted round-robin balancer and configuration watch engine

A shallow embedding of

* `auth.go`: `WeightRoundRobinBalance` (`Add`, `Next`, `Get`),
* `sdk/configfile_watch.go`: the change classification of `ConfigFilesWatcher.Run`,
* `sdk/confd.go`: `wildCardToRegexp`, `match`, `createWatch`, `parseKey`, and the watch engine
  (`Watch.update`, `watchFile`, `Watch.WaitNext`, the goroutines of `WatchPrefix`),
* `crypto/aes.go`: `pkcs7Padding`, `pkcs7UnPadding`,

followed by the theorems about them.

Conventions of the embedding.

* Go `int` is 64 bits wide and its arithmetic wraps around. It is embedded as `Int`, every
  addition and subtraction of the balancer being followed by `wrapInt`, the reduction modulo
  `2^64` into `[-2^63, 2^63)`. On a balancer built by `Add` from `n` hosts with positive weights
  of sum `W`, `n * W` below `2^63`, no sum leaves that range (`run_in_range`); on three hosts of
  weight `2^62` the sums wrap (`run_wraps`).
* A Go `[]*WeightNode` is embedded as a `List WeightNode`; a `*WeightNode` into that slice is
  the index of the node (every node is allocated by `Add`, so no two entries alias).
* A Go `string` is embedded as `String` where it is only stored and compared, and as
  `List Char` where it is taken apart (`strings.Split`, `regexp`, `filepath`).
* The functions of the Go library that `confd.go` calls (`strings.SplitN`, `strings.TrimPrefix`,
  `filepath.Base`, `regexp.QuoteMeta`, `regexp.MatchString`) are embedded from their documented
  behaviour, the regular expressions for the fragment that `wildCardToRegexp` produces.
* HTTP calls are not embedded: a function that makes one takes the response as an argument.
* The `int64` revision of a watch is embedded as `Int`: it only ever grows by steps of 1 from 0.
* Goroutines on one watch are embedded as a transition system whose steps are the sections that
  run under the lock of the watch and the evaluations made outside it; a schedule is the list of
  the goroutines that take the steps.
-/

set_option autoImplicit false

namespace Polaris

/-! ## Go's `int` -/

/-- The value, as a Go `int`, of the integer `x` that an addition or a subtraction of two `int`s
gives: `int` is 64 bits wide (two's complement) and its arithmetic wraps around, so the result is
the integer of `[-2^63, 2^63)` that differs from `x` by a multiple of `2^64`. -/
def wrapInt (x : Int) : Int :=
  (x + 9223372036854775808) % 18446744073709551616 - 9223372036854775808

/-- The integers a Go `int` can hold: `-2^63 ≤ x < 2^63`. -/
def InRange (x : Int) : Prop := -9223372036854775808 ≤ x ∧ x < 9223372036854775808

instance (x : Int) : Decidable (InRange x) := by
  unfold InRange
  infer_instance

/-! ## `auth.go`: data model -/

/-- The `balancer.Host` of the balancer library: an IP address and a port. -/
structure Host where
  Address : List Nat
  Port : Int
  deriving DecidableEq, Repr

/-- Go `type WeightHost struct`. -/
structure WeightHost where
  host : Host
  weight : Int
  deriving DecidableEq, Repr

/-- Go `type WeightNode struct`. -/
structure WeightNode where
  host : Host
  Weight : Int
  currentWeight : Int
  effectiveWeight : Int
  deriving DecidableEq, Repr

/-- Go `type WeightRoundRobinBalance struct`. -/
structure WeightRoundRobinBalance where
  curIndex : Int
  rss : List WeightNode
  rsw : List Int
  deriving DecidableEq, Repr

/-- The zero value `WeightRoundRobinBalance{}`. -/
def WeightRoundRobinBalance.zero : WeightRoundRobinBalance :=
  { curIndex := 0, rss := [], rsw := [] }

/-- Go `func (r *WeightRoundRobinBalance) Add(host WeightHost) error` (the error is always nil). -/
def WeightRoundRobinBalance.Add (r : WeightRoundRobinBalance) (host : WeightHost) :
    WeightRoundRobinBalance :=
  let node : WeightNode :=
    { host := host.host, Weight := host.weight, currentWeight := 0, effectiveWeight := 0 }
  let node := { node with effectiveWeight := node.Weight }
  { r with rss := r.rss ++ [node] }

/-- The loop of `Next` (lines 132-147). `todo` are the nodes `r.rss[i:]` still to visit, `done`
the nodes `r.rss[:i]` as the loop has left them (so `i = done.length`), `total` and `best` the
two local variables; `best` is the index of the node the pointer designates. The additions are
those of Go's `int` (`wrapInt`), and the comparison is made on the values so stored. -/
def WeightRoundRobinBalance.Next.loop :
    List WeightNode → List WeightNode → Int → Option Nat → List WeightNode × Int × Option Nat
  | [], done, total, best => (done, total, best)
  | w :: todo, done, total, best =>
    -- total += w.effectiveWeight
    let total := wrapInt (total + w.effectiveWeight)
    -- w.currentWeight += w.effectiveWeight
    let w := { w with currentWeight := wrapInt (w.currentWeight + w.effectiveWeight) }
    -- if w.effectiveWeight < w.Weight { w.effectiveWeight++ }
    -- (an `int` below another `int` is below the largest one: this increment does not wrap)
    let w := if w.effectiveWeight < w.Weight then
      { w with effectiveWeight := w.effectiveWeight + 1 } else w
    -- if best == nil || w.currentWeight > best.currentWeight { best = w }
    let best :=
      match best with
      | none => some done.length
      | some b =>
        match (done ++ w :: todo)[b]? with
        | some bn => if w.currentWeight > bn.currentWeight then some done.length else some b
        | none => some b
    WeightRoundRobinBalance.Next.loop todo (done ++ [w]) total best

/-- The node `best` points to when the loop of `Next` is over (`none` is the nil pointer). -/
def WeightRoundRobinBalance.Next.best (r : WeightRoundRobinBalance) : Option Nat :=
  (WeightRoundRobinBalance.Next.loop r.rss [] 0 none).2.2

/-- Go `func (r *WeightRoundRobinBalance) Next() (balancer.Host, error)`: the balancer after the
call and the returned host or error. -/
def WeightRoundRobinBalance.Next (r : WeightRoundRobinBalance) :
    WeightRoundRobinBalance × Except String Host :=
  match WeightRoundRobinBalance.Next.loop r.rss [] 0 none with
  | (rss, _, none) => ({ r with rss := rss }, .error "best is nil")
  | (rss, total, some b) =>
    match rss[b]? with
    | none => ({ r with rss := rss }, .error "nil pointer dereference")
    | some bn =>
      -- best.currentWeight -= total
      ({ r with rss := rss.set b { bn with currentWeight := wrapInt (bn.currentWeight - total) } },
        .ok bn.host)

/-- Go `func (r *WeightRoundRobinBalance) Get() (balancer.Host, error)`. -/
def WeightRoundRobinBalance.Get (r : WeightRoundRobinBalance) :
    WeightRoundRobinBalance × Except String Host :=
  r.Next

/-- The balancer after `n` consecutive calls of `Next`. -/
def WeightRoundRobinBalance.nextN : Nat → WeightRoundRobinBalance → WeightRoundRobinBalance
  | 0, r => r
  | n + 1, r => (WeightRoundRobinBalance.nextN n r).Next.1

/-- The nodes (as indices into `rss`) selected by the first `n` calls of `Next`, in call order. -/
def WeightRoundRobinBalance.picks : Nat → WeightRoundRobinBalance → List Nat
  | 0, _ => []
  | n + 1, r =>
    WeightRoundRobinBalance.picks n r ++
      (WeightRoundRobinBalance.Next.best (WeightRoundRobinBalance.nextN n r)).toList

/-- A balancer freshly built by calling `Add` for each host in turn (as `BalancerClient` does). -/
def WeightRoundRobinBalance.build (hosts : List WeightHost) : WeightRoundRobinBalance :=
  hosts.foldl WeightRoundRobinBalance.Add WeightRoundRobinBalance.zero

/-! ## `auth.go`: auxiliary definitions for the proofs -/

/-- What one iteration of the loop of `Next` does to the node it visits (lines 137-141). -/
def bump (w : WeightNode) : WeightNode :=
  let w := { w with currentWeight := wrapInt (w.currentWeight + w.effectiveWeight) }
  if w.effectiveWeight < w.Weight then { w with effectiveWeight := w.effectiveWeight + 1 } else w

/-- The loop invariant of `best`: nil while nothing has been visited, otherwise the first node
of `l` whose currentWeight is the maximum over `l`. -/
def IsFirstMax (l : List WeightNode) : Option Nat → Prop
  | none => l = []
  | some b => ∃ nb, l[b]? = some nb ∧
      (∀ (j : Nat) (n : WeightNode), l[j]? = some n → n.currentWeight ≤ nb.currentWeight) ∧
      (∀ (j : Nat) (n : WeightNode), j < b → l[j]? = some n → n.currentWeight < nb.currentWeight)

/-- The value of the local variable `total` of `Next` when its loop is over: the effectiveWeights
added up one after the other in Go's `int`. -/
def WeightRoundRobinBalance.totalWeight (r : WeightRoundRobinBalance) : Int :=
  (r.rss.map (·.effectiveWeight)).foldl (fun t e => wrapInt (t + e)) 0

/-- The sum of the effectiveWeight of all nodes, as an integer. -/
def WeightRoundRobinBalance.sumEffective (r : WeightRoundRobinBalance) : Int :=
  (r.rss.map (·.effectiveWeight)).sum

/-- The node `best` after `Next` has visited it and subtracted `total` from it. -/
def selectedNode (nb : WeightNode) (total : Int) : WeightNode :=
  { host := nb.host, Weight := nb.Weight,
    currentWeight := wrapInt (wrapInt (nb.currentWeight + nb.effectiveWeight) - total),
    effectiveWeight := (bump nb).effectiveWeight }

/-- The sum of the currentWeight of all nodes, as an integer. -/
def WeightRoundRobinBalance.sumCurrent (r : WeightRoundRobinBalance) : Int :=
  (r.rss.map (·.currentWeight)).sum

/-- The sum `W` of the configured weights of a list of hosts. -/
def sumWeights (hosts : List WeightHost) : Int := (hosts.map (fun h => h.weight)).sum

/-- The node `Add` appends for a host. -/
def freshNode (h : WeightHost) : WeightNode :=
  { host := h.host, Weight := h.weight, currentWeight := 0, effectiveWeight := h.weight }

/-- The node of host `h` after `m` calls of `Next` on a fresh balancer of total weight `W`, when
`c` of these calls selected it. -/
def runNode (W : Int) (m : Nat) (c : Nat) (h : WeightHost) : WeightNode :=
  { host := h.host, Weight := h.weight,
    currentWeight := (m : Int) * h.weight - W * (c : Int), effectiveWeight := h.weight }

/-- An example host `10.0.0.k:8090`. -/
def exHost (k : Nat) : Host := { Address := [10, 0, 0, k], Port := 8090 }

/-- A balancer of two nodes whose first node (weight 3) has effectiveWeight 1, two below its
weight. -/
def healExample : WeightRoundRobinBalance :=
  { curIndex := 0,
    rss := [{ host := exHost 1, Weight := 3, currentWeight := 0, effectiveWeight := 1 },
            { host := exHost 2, Weight := 5, currentWeight := 0, effectiveWeight := 5 }],
    rsw := [] }

/-- Three hosts of weight `2^62`: the sum of two of these weights is `2^63`, one more than the
largest `int`. -/
def bigHosts : List WeightHost :=
  [⟨exHost 1, 4611686018427387904⟩, ⟨exHost 2, 4611686018427387904⟩,
   ⟨exHost 3, 4611686018427387904⟩]

/-- Three nodes of weight `2^62` in the state that one call of `Next` leaves on the balancer
built from `bigHosts`: the currentWeights are `-2^63, 2^62, 2^62`. -/
def wrapExample : WeightRoundRobinBalance :=
  { curIndex := 0,
    rss := [{ host := exHost 1, Weight := 4611686018427387904,
              currentWeight := -9223372036854775808, effectiveWeight := 4611686018427387904 },
            { host := exHost 2, Weight := 4611686018427387904,
              currentWeight := 4611686018427387904, effectiveWeight := 4611686018427387904 },
            { host := exHost 3, Weight := 4611686018427387904,
              currentWeight := 4611686018427387904, effectiveWeight := 4611686018427387904 }],
    rsw := [] }

/-! ## `sdk/configfile.go` and `sdk/configfile_watch.go` -/

/-- Go `const NotExistedFileContent`. -/
def NotExistedFileContent : String := "@@not_existed@@"

/-- The response codes of the specification library that the watcher tells apart; every other
code is `Other`. -/
inductive Code where
  | ExecuteSuccess
  | DataNoChange
  | NotFoundResource
  | Other (n : Nat)
  deriving DecidableEq, Repr

/-- The `model.ChangeType` of the polaris library. -/
inductive ChangeType where
  | Added
  | Modified
  | Deleted
  | NotChanged
  deriving DecidableEq, Repr

/-- Go `type ConfigFile struct` of package `sdk` (the fields the watcher reads). -/
structure ConfigFile where
  Namespace : String
  Group : String
  FileName : String
  Content : String
  Version : String
  Encrypted : Bool
  deriving DecidableEq, Repr

/-- Go `func (c *ConfigFile) GetSourceContent() string`. -/
def ConfigFile.GetSourceContent (c : ConfigFile) : String := c.Content

/-- Go `func (c *ConfigFile) GetVersion() uint64`: the decimal version, 0 when it does not
parse as a 64-bit unsigned number. -/
def ConfigFile.GetVersion (c : ConfigFile) : Nat :=
  match c.Version.toNat? with
  | some v => if v < 2 ^ 64 then v else 0
  | none => 0

/-- Go `func (c *ConfigFile) GetContent() (string, error)`. `decrypt` is the branch taken for an
encrypted file (the AES decryption with the data key of the tags, or the error for another
algorithm). -/
def ConfigFile.GetContent (decrypt : ConfigFile → Except String String) (c : ConfigFile) :
    Except String String :=
  if c.Encrypted then decrypt c else .ok c.Content

/-- Go `type ConfigFileResponse struct`; `ConfigFile` is a pointer and may be nil. -/
structure ConfigFileResponse where
  Code : Code
  Info : String
  ConfigFile : Option ConfigFile
  deriving DecidableEq, Repr

/-- Go `type WatchFile struct`. -/
structure WatchFile where
  Namespace : String
  Group : String
  FileName : String
  Version : Nat
  content : String
  deriving DecidableEq, Repr

/-- The zero value `WatchFile{}`, which reading a missing key of the map yields. -/
def WatchFile.zero : WatchFile :=
  { Namespace := "", Group := "", FileName := "", Version := 0, content := "" }

/-- Go `func (w WatchFile) SetContent(str string)`. The receiver is a value, so the assignment
is made to the copy of the callee: the result is this copy, which the caller never sees. -/
def WatchFile.SetContent (w : WatchFile) (str : String) : WatchFile :=
  { w with content := str }

/-- The field `watchFiles map[string]WatchFile` of `ConfigFilesWatcher`. -/
abbrev WatchFiles := String → Option WatchFile

/-- The map read `watchFiles[name]`. -/
def WatchFiles.get (m : WatchFiles) (name : String) : WatchFile :=
  (m name).getD WatchFile.zero

/-- The map write `watchFiles[name] = w`. -/
def WatchFiles.set (m : WatchFiles) (name : String) (w : WatchFile) : WatchFiles :=
  fun k => if k = name then some w else m k

/-- The `model.ConfigFileChangeEvent` of the polaris library. -/
structure ConfigFileChangeEvent where
  ConfigFileMetadata : Option ConfigFile
  OldValue : String
  NewValue : String
  ChangeType : ChangeType
  deriving DecidableEq, Repr

/-- Lines 115-126 of `Run`: the new content read off the response of `GetConfigFile`; `none`
is the nil pointer dereference of a successful response without a file. -/
def ConfigFilesWatcher.Run.newContent (decrypt : ConfigFile → Except String String)
    (newfileResp : ConfigFileResponse) : Option String :=
  let newContent : Option String :=
    if newfileResp.Code = Code.ExecuteSuccess then
      match newfileResp.ConfigFile with
      | none => none
      | some file =>
        match file.GetContent decrypt with
        | .ok content => some content
        | .error _ => some file.GetSourceContent
    else some ""
  if newfileResp.Code = Code.NotFoundResource then newContent.map (fun _ => NotExistedFileContent)
  else newContent

/-- Lines 131-152 of `Run`: the classification of the transition from `oldContent` to
`newContent` and the event built from it. -/
def ConfigFilesWatcher.Run.event (metadata : Option ConfigFile) (oldContent newContent : String) :
    ConfigFileChangeEvent :=
  if oldContent = NotExistedFileContent ∧ newContent ≠ NotExistedFileContent then
    { ConfigFileMetadata := metadata, OldValue := "", NewValue := newContent,
      ChangeType := ChangeType.Added }
  else if oldContent ≠ NotExistedFileContent ∧ newContent = NotExistedFileContent then
    { ConfigFileMetadata := metadata, OldValue := oldContent, NewValue := "",
      ChangeType := ChangeType.Deleted }
  else if oldContent ≠ newContent then
    { ConfigFileMetadata := metadata, OldValue := oldContent, NewValue := newContent,
      ChangeType := ChangeType.Modified }
  else
    { ConfigFileMetadata := metadata, OldValue := oldContent, NewValue := newContent,
      ChangeType := ChangeType.NotChanged }

/-- Lines 111-161 of `Run`: what the watcher does with a change that the long poll reported for
`configFile`, given the response `newfileResp` of `GetConfigFile` (`none` when that call failed
and returned a nil response). The result is the map `watchFiles` afterwards and the event passed
to `fireChangeEvent`; `none` is a nil pointer dereference. -/
def ConfigFilesWatcher.Run.step (decrypt : ConfigFile → Except String String)
    (watchFiles : WatchFiles) (configFile : ConfigFile)
    (newfileResp : Option ConfigFileResponse) : Option (WatchFiles × ConfigFileChangeEvent) :=
  match newfileResp with
  | none => none
  | some newfileResp =>
    let oldContent := (watchFiles.get configFile.FileName).content
    match ConfigFilesWatcher.Run.newContent decrypt newfileResp with
    | none => none
    | some newContent =>
      -- w.watchFiles[...].SetContent(newContent): the map entry is copied, the copy is lost
      let _ := (watchFiles.get configFile.FileName).SetContent newContent
      let event := ConfigFilesWatcher.Run.event newfileResp.ConfigFile oldContent newContent
      some (watchFiles.set configFile.FileName
              { FileName := configFile.FileName, Namespace := configFile.Namespace,
                Group := configFile.Group, Version := configFile.GetVersion, content := "" },
            event)

/-- The entry `WatchConfigFiles` stores for a file that the server does not have. -/
def absentWatchFile (ns group filename : String) : WatchFile :=
  { FileName := filename, Group := group, Namespace := ns, Version := 0,
    content := NotExistedFileContent }

/-- The map `WatchConfigFiles` builds when the only watched file is absent on the server. -/
def absentWatchFiles (ns group filename : String) : WatchFiles :=
  WatchFiles.set (fun _ => none) filename (absentWatchFile ns group filename)

/-- A successful response of `GetConfigFile` for an unencrypted file. -/
def fetched (ns group filename content version : String) : ConfigFileResponse :=
  { Code := Code.ExecuteSuccess, Info := "",
    ConfigFile := some { Namespace := ns, Group := group, FileName := filename,
                         Content := content, Version := version, Encrypted := false } }

/-- The response of `GetConfigFile` for a file that the server does not have. -/
def notFound : ConfigFileResponse :=
  { Code := Code.NotFoundResource, Info := "", ConfigFile := none }

/-- The file named in the notification of the long poll. -/
def notified (ns group filename version : String) : ConfigFile :=
  { Namespace := ns, Group := group, FileName := filename, Content := "", Version := version,
    Encrypted := false }

/-! ## `sdk/confd.go`: the library functions it calls

Strings are lists of characters here. -/

/-- The backslash. -/
def backslash : Char := Char.ofNat 92

/-- The line feed, the one character that `.` does not match. -/
def newline : Char := Char.ofNat 10

/-- Go `strings.SplitN(s, sep, n)` for a separator of one character and `n ≥ 0`: at most `n`
pieces, the last one being the unsplit remainder (`genSplit`: cut at the first separator while
fewer than `n - 1` pieces have been cut off). -/
def stringsSplitN (sep : Char) : Nat → List Char → List (List Char)
  | 0, _ => []
  | 1, s => [s]
  | n + 2, s =>
    if sep ∈ s then
      s.takeWhile (fun c => c ≠ sep) ::
        stringsSplitN sep (n + 1) ((s.dropWhile (fun c => c ≠ sep)).drop 1)
    else [s]

/-- Go `strings.Split(s, sep)` for a separator of one character: `SplitN` with
`n = Count(s, sep) + 1`. -/
def stringsSplit (sep : Char) (s : List Char) : List (List Char) :=
  stringsSplitN sep (s.count sep + 1) s

/-- Go `strings.TrimPrefix(s, pre)`. -/
def stringsTrimPrefix (s pre : List Char) : List Char :=
  if pre.isPrefixOf s then s.drop pre.length else s

/-- Go `filepath.Base(path)` on a system whose path separator is `/`. -/
def filepathBase (path : List Char) : List Char :=
  if path = [] then ['.']
  else
    -- strip trailing slashes
    let path := (path.reverse.dropWhile (fun c => c = '/')).reverse
    -- find the last element
    let path := (path.reverse.takeWhile (fun c => c ≠ '/')).reverse
    -- if empty now, it had only slashes
    if path = [] then ['/'] else path

/-- The bytes that `regexp.QuoteMeta` escapes: `\.+*?()|[]{}^$`. -/
def regexpSpecial (c : Char) : Bool :=
  c = backslash || c = '.' || c = '+' || c = '*' || c = '?' || c = '(' || c = ')' || c = '|' ||
    c = '[' || c = ']' || c = Char.ofNat 123 || c = Char.ofNat 125 || c = '^' || c = '$'

/-- Go `regexp.QuoteMeta(s)`: a backslash before every special character. -/
def regexpQuoteMeta : List Char → List Char
  | [] => []
  | c :: s => if regexpSpecial c then backslash :: c :: regexpQuoteMeta s
              else c :: regexpQuoteMeta s

/-- The regular expressions `wildCardToRegexp` can produce, as `regexp/syntax` parses them: a
concatenation of literal characters and of `.*`. -/
inductive RegexpItem where
  | lit (c : Char)
  | anyStar
  deriving DecidableEq, Repr

/-- The parser of `regexp.Compile` and `regexp.CompilePOSIX` on that fragment: an escaped special
character and an ordinary character are literals, `.*` is `anyStar`; everything else (an
operator, a class, a group, an anchor) is outside the fragment and yields `none`. -/
def regexpParse : List Char → Option (List RegexpItem)
  | [] => some []
  | c :: rest =>
    if c = backslash then
      match rest with
      | [] => none
      | d :: rest =>
        if regexpSpecial d then (regexpParse rest).map (fun items => RegexpItem.lit d :: items)
        else none
    else if c = '.' then
      match rest with
      | [] => none
      | d :: rest =>
        if d = '*' then (regexpParse rest).map (fun items => RegexpItem.anyStar :: items)
        else none
    else if regexpSpecial c then none
    else (regexpParse rest).map (fun items => RegexpItem.lit c :: items)

/-- The item `.*` followed by a rest matched by `k`: `.` takes any character but the line feed,
`*` any number of them. -/
def regexpMatchStar (k : List Char → Bool) : List Char → Bool
  | [] => k []
  | x :: xs => k (x :: xs) || (x ≠ newline && regexpMatchStar k xs)

/-- Whether the regular expression matches a prefix of the input. -/
def regexpMatchHere : List RegexpItem → List Char → Bool
  | [], _ => true
  | RegexpItem.lit c :: items, s =>
    match s with
    | [] => false
    | x :: xs => x = c && regexpMatchHere items xs
  | RegexpItem.anyStar :: items, s => regexpMatchStar (regexpMatchHere items) s

/-- Go `(*Regexp).MatchString(s)`: whether `s` contains a match of the regular expression,
that is whether the expression matches at some position of `s`. -/
def regexpMatchString (re : List RegexpItem) : List Char → Bool
  | [] => regexpMatchHere re []
  | x :: xs => regexpMatchHere re (x :: xs) || regexpMatchString re xs

/-! ## `sdk/confd.go` -/

/-- The loop of `wildCardToRegexp` over the pieces `strings.Split(pattern, "*")`, `i` being the
index of the piece and `result` the contents of the string builder. -/
def wildCardToRegexp.loop : List (List Char) → Nat → List Char → List Char
  | [], _, result => result
  | literal :: rest, i, result =>
    -- if i > 0 { result.WriteString(".*") }
    let result := if i > 0 then result ++ ['.', '*'] else result
    -- result.WriteString(regexp.QuoteMeta(literal))
    let result := result ++ regexpQuoteMeta literal
    wildCardToRegexp.loop rest (i + 1) result

/-- Go `func wildCardToRegexp(pattern string) string`. -/
def wildCardToRegexp (pattern : List Char) : List Char :=
  wildCardToRegexp.loop (stringsSplit '*' pattern) 0 []

/-- Go `regexp.MatchString(pattern, s)`: false (with an error) when the pattern does not
compile. -/
def regexpMatchStringOf (pattern s : List Char) : Bool :=
  match regexpParse pattern with
  | none => false
  | some re => regexpMatchString re s

/-- Go `func match(pattern string, value string) bool`. -/
def matchValue (pattern value : List Char) : Bool :=
  regexpMatchStringOf (wildCardToRegexp pattern) value

/-- Go `type Watch struct`, without the channel and the lock. -/
structure Watch where
  revision : Int
  nspace : List Char
  group : List Char
  filename : List Char
  wildcard : Bool
  files : List (List Char)
  deriving DecidableEq, Repr

/-- The loop of `createWatch` over the file listing of the group (lines 291-298): `w` is the
watch, `started` the files for which a `watchFile` goroutine has been started. -/
def Confd.createWatch.loop (pattern : List RegexpItem) :
    List (List Char) → Watch → List (List Char) → Watch × List (List Char)
  | [], w, started => (w, started)
  | configFile :: rest, w, started =>
    if regexpMatchString pattern configFile then
      if configFile ∉ w.files then
        Confd.createWatch.loop pattern rest { w with files := w.files ++ [configFile] }
          (started ++ [configFile])
      else Confd.createWatch.loop pattern rest w started
    else Confd.createWatch.loop pattern rest w started

/-- Go `func (c *Confd) createWatch(namespace, group, fileName string) (*Watch, error)`.
`listing` is the answer of `GetConfigFileMetadataList(namespace, group)`: the file names of the
group or an error. The result is the watch and the files for which a `watchFile` goroutine has
been started. -/
def Confd.createWatch (listing : Except String (List (List Char)))
    (nspace group fileName : List Char) : Except String (Watch × List (List Char)) :=
  let w : Watch := { revision := 0, nspace := nspace, group := group, filename := fileName,
                     wildcard := false, files := [] }
  if !matchValue (wildCardToRegexp ['*']) fileName then
    .ok (w, [fileName])
  else
    match regexpParse (wildCardToRegexp fileName) with
    | none => .error "regexp: MustCompilePOSIX panics"
    | some pattern =>
      let w := { w with wildcard := true }
      match listing with
      | .error err => .error err
      | .ok configFileInfos => .ok (Confd.createWatch.loop pattern configFileInfos w [])

/-- Go `func parseKey(prefix, key string) (string, string, string)` with `/` as the path
separator; `none` is an index-out-of-range panic (`arr[1]`, `arr[2]`, `path[0]`). -/
def parseKey (pre key : List Char) : Option (List Char × List Char × List Char) :=
  let split : Option (List Char × List Char) :=
    if pre = [] then
      let arr := stringsSplitN '/' 3 key
      match arr[1]?, arr[2]? with
      | some a1, some a2 => some (a1, a2)
      | _, _ => none
    else some (pre, key)
  match split with
  | none => none
  | some (pre, key) =>
    let path := stringsSplitN '/' 2 (stringsTrimPrefix (stringsTrimPrefix key pre) ['/'])
    let nspace := filepathBase pre
    let group := "default".toList
    -- if len(path) == 2 { group = path[0]; fileName = path[1] } else { fileName = path[0] }
    let groupFile : Option (List Char × List Char) :=
      match path with
      | [p0, p1] => some (p0, p1)
      | p0 :: _ => some (group, p0)
      | [] => none
    match groupFile with
    | none => none
    | some (group, fileName) =>
      let nspace := if stringsTrimPrefix nspace ['/'] = [] then "default".toList else nspace
      let group := if group = [] then "default".toList else group
      some (nspace, group, fileName)

/-! ## `sdk/confd.go`: what the specification says, and auxiliary definitions -/

/-- The glob semantics of the specification: the whole of `s` matches the pattern `p`, every
`*` of `p` standing for a possibly empty sequence of characters that satisfy `any`, every other
character of `p` standing for itself. -/
inductive GlobMatches (any : Char → Prop) : List Char → List Char → Prop where
  | nil : GlobMatches any [] []
  | lit (c : Char) (p s : List Char) : c ≠ '*' → GlobMatches any p s →
      GlobMatches any (c :: p) (c :: s)
  | star (u p s : List Char) : (∀ x ∈ u, any x) → GlobMatches any p s →
      GlobMatches any ('*' :: p) (u ++ s)

/-- The pieces of `s` between the occurrences of `sep`. -/
def splitAll (sep : Char) : List Char → List (List Char)
  | [] => [[]]
  | c :: s =>
    if c = sep then [] :: splitAll sep s
    else match splitAll sep s with
      | [] => [[c]]
      | piece :: pieces => (c :: piece) :: pieces

/-- The regular expression of a glob pattern, character by character. -/
def globToRegexp : List Char → List Char
  | [] => []
  | c :: p =>
    if c = '*' then '.' :: '*' :: globToRegexp p
    else if regexpSpecial c then backslash :: c :: globToRegexp p
    else c :: globToRegexp p

/-- The item of a character of a glob pattern. -/
def globItem (c : Char) : RegexpItem :=
  if c = '*' then RegexpItem.anyStar else RegexpItem.lit c

/-- The regular expression written for the pieces after the first: `.*` before each. -/
def joinRest : List (List Char) → List Char
  | [] => []
  | piece :: pieces => '.' :: '*' :: (regexpQuoteMeta piece ++ joinRest pieces)

/-! ## `crypto/aes.go`

A `[]byte` is a list of numbers below 256. -/

/-- The Go conversion `byte(n)` of an `int`. -/
def toByte (n : Int) : Nat := (n % 256).toNat

/-- Go `func pkcs7Padding(data []byte, blockSize int) []byte`; `none` is a panic (the integer
division by zero of `len(data)%blockSize`, the negative count of `bytes.Repeat`). -/
def pkcs7Padding (data : List Nat) (blockSize : Int) : Option (List Nat) :=
  if blockSize = 0 then none
  else
    -- padding := blockSize - len(data)%blockSize
    let padding := blockSize - Int.tmod (data.length : Int) blockSize
    -- padText := bytes.Repeat([]byte{byte(padding)}, padding)
    if padding < 0 then none
    else some (data ++ List.replicate padding.toNat (toByte padding))

/-- Go `func pkcs7UnPadding(data []byte) ([]byte, error)`; the outer `none` is the panic of the
slice expression `data[:(length - unPadding)]` with a negative bound. -/
def pkcs7UnPadding (data : List Nat) : Option (Except String (List Nat)) :=
  let length := data.length
  if length = 0 then some (.error "invalid encryption data")
  else
    match data[length - 1]? with
    | none => none
    | some last =>
      -- unPadding := int(data[length-1])
      let unPadding := last
      if unPadding ≤ length then some (.ok (data.take (length - unPadding))) else none

/-! ## `sdk/confd.go`: the watch engine

A channel is the number under which `make` has allocated it. Goroutines are interleaved at the
granularity the lock gives: what happens under `rwl` is one step, and so is the evaluation of
the argument `w.revision + 1` of a call `w.update(w.revision + 1)`, which happens before the
callee takes the lock. -/

/-- A `*Watch` with what the structure `Watch` leaves out: the channel `cond`, the channels that
have been closed, and the number of channels made so far. -/
structure WatchCell where
  watch : Watch
  cond : Nat
  closed : List Nat
  made : Nat
  deriving DecidableEq, Repr

/-- The `*Watch` that `createWatch` allocates: `make(chan struct{})` is channel 0. -/
def WatchCell.ofWatch (w : Watch) : WatchCell :=
  { watch := w, cond := 0, closed := [], made := 1 }

/-- Go `func (w *Watch) update(newRevision int64)`, the body under the lock. -/
def Watch.update (w : WatchCell) (newRevision : Int) : WatchCell :=
  { watch := { w.watch with revision := newRevision },   -- w.revision = newRevision
    closed := w.cond :: w.closed,                        -- close(w.cond)
    cond := w.made,                                      -- w.cond = make(chan struct{})
    made := w.made + 1 }

/-- What `watchFile` does with an event of its channel (lines 259-274), every call
`w.update(w.revision + 1)` running without another goroutine in between; the flag tells whether
the loop goes on. -/
def watchFile.onEvent (fileName : List Char) (w : WatchCell) :
    ChangeType → WatchCell × Bool
  | ChangeType.Deleted =>
    let w := { w with watch := { w.watch with files := w.watch.files.erase fileName } }
    (Watch.update w (w.watch.revision + 1), false)
  | ChangeType.Added => (Watch.update w (w.watch.revision + 1), true)
  | ChangeType.Modified => (Watch.update w (w.watch.revision + 1), true)
  | ChangeType.NotChanged => (w, true)

/-- The loop of the re-scan over the listing (lines 165-178): `tmpConfigFiles` are the matching
names seen, `started` the files for which `watchFile` has been started. -/
def Watch.WaitNext.rescan.loop (pattern : List RegexpItem) :
    List (List Char) → WatchCell → List (List Char) → List (List Char) →
      WatchCell × List (List Char) × List (List Char)
  | [], w, tmpConfigFiles, started => (w, tmpConfigFiles, started)
  | configFile :: rest, w, tmpConfigFiles, started =>
    if regexpMatchString pattern configFile then
      if configFile ∉ w.watch.files then
        Watch.WaitNext.rescan.loop pattern rest
          { w with watch := { w.watch with files := w.watch.files ++ [configFile] } }
          (tmpConfigFiles ++ [configFile]) (started ++ [configFile])
      else
        Watch.WaitNext.rescan.loop pattern rest w (tmpConfigFiles ++ [configFile]) started
    else Watch.WaitNext.rescan.loop pattern rest w tmpConfigFiles started

/-- One tick of the re-scan goroutine of `WaitNext` (lines 156-192) on the listing of the group,
its call `w.update(w.revision + 1)` running without another goroutine in between. The result is
the watch and the files for which a `watchFile` goroutine has been started. -/
def Watch.WaitNext.rescan (pattern : List RegexpItem) (configFileInfos : List (List Char))
    (w : WatchCell) : WatchCell × List (List Char) :=
  match Watch.WaitNext.rescan.loop pattern configFileInfos w [] [] with
  | (w, tmpConfigFiles, started) =>
    -- needUpdate after the first loop: a watchFile has been started
    if started ≠ [] then (w, started)
    -- a watched file is no longer listed
    else if w.watch.files.any (fun file => file ∉ tmpConfigFiles) then
      (Watch.update w (w.watch.revision + 1), [])
    else (w, [])

/-- Where a goroutine of the engine (a `watchFile` or a re-scan) stands in a call
`w.update(w.revision + 1)`: before it, or with the argument evaluated and the lock of `update`
not yet taken. -/
inductive BumpPc where
  | idle
  | evaluated (newRevision : Int)
  deriving DecidableEq, Repr

/-- A watch and the goroutines of the engine that bump it. -/
structure Engine where
  cell : WatchCell
  pcs : List BumpPc
  deriving DecidableEq, Repr

/-- One step of goroutine `g`: it evaluates `w.revision + 1`, or it runs `update` with the
argument it has evaluated. -/
def Engine.step (e : Engine) (g : Nat) : Engine :=
  match e.pcs[g]? with
  | none => e
  | some BumpPc.idle =>
    { e with pcs := e.pcs.set g (BumpPc.evaluated (e.cell.watch.revision + 1)) }
  | some (BumpPc.evaluated newRevision) =>
    { cell := Watch.update e.cell newRevision, pcs := e.pcs.set g BumpPc.idle }

/-- The engine after the steps of a schedule, a list of goroutines. -/
def Engine.run (e : Engine) (schedule : List Nat) : Engine :=
  schedule.foldl Engine.step e

/-- The revision after each step of a schedule. -/
def Engine.revisions : Engine → List Nat → List Int
  | _, [] => []
  | e, g :: schedule => (e.step g).cell.watch.revision :: Engine.revisions (e.step g) schedule

/-- Where a call of `WaitNext` stands: at the test of the loop, in the `select` on the channel
`cond` it has read, at the `select` that sends on `notify`, or returned, after sending `v` or on
`ctx.Done()`. -/
inductive WaitPc where
  | check
  | blocked (cond : Nat)
  | send
  | sent (v : Int)
  | cancelled
  deriving DecidableEq, Repr

/-- A watch, the goroutines that bump it, and one call `w.WaitNext(ctx, c, lastRevision,
notify)`. -/
structure WaitSystem where
  engine : Engine
  lastRevision : Int
  waiter : WaitPc
  deriving DecidableEq, Repr

/-- What the scheduler lets happen next: a step of bumping goroutine `g`, a step of `WaitNext`
(the receiver of `notify` being ready), or the `ctx.Done()` case of the `select` at which
`WaitNext` stands. -/
inductive WaitAction where
  | bump (g : Nat)
  | wait
  | cancel
  deriving DecidableEq, Repr

/-- One step of `WaitNext` (lines 140-213). At the test: past the loop when the revision is
greater than `lastRevision`, otherwise into the `select` with the current `cond`, a wildcard
watch starting a re-scan goroutine on the way. In the `select`: back to the test once `cond` is
closed. At the send: `w.revision`, read now, goes to `notify`. -/
def WaitSystem.wait (s : WaitSystem) : WaitSystem :=
  match s.waiter with
  | WaitPc.check =>
    if s.engine.cell.watch.revision > s.lastRevision then { s with waiter := WaitPc.send }
    else
      { s with
        waiter := WaitPc.blocked s.engine.cell.cond,
        engine :=
          if s.engine.cell.watch.wildcard then
            { s.engine with pcs := s.engine.pcs ++ [BumpPc.idle] }
          else s.engine }
  | WaitPc.blocked cond =>
    if cond ∈ s.engine.cell.closed then { s with waiter := WaitPc.check } else s
  | WaitPc.send => { s with waiter := WaitPc.sent s.engine.cell.watch.revision }
  | WaitPc.sent _ => s
  | WaitPc.cancelled => s

/-- The case `<-ctx.Done()` of the two `select` statements of `WaitNext`. -/
def WaitSystem.cancel (s : WaitSystem) : WaitSystem :=
  match s.waiter with
  | WaitPc.blocked _ => { s with waiter := WaitPc.cancelled }
  | WaitPc.send => { s with waiter := WaitPc.cancelled }
  | _ => s

/-- One step of the system. -/
def WaitSystem.step (s : WaitSystem) : WaitAction → WaitSystem
  | WaitAction.bump g => { s with engine := s.engine.step g }
  | WaitAction.wait => s.wait
  | WaitAction.cancel => s.cancel

/-- The system after a list of steps. -/
def WaitSystem.run (s : WaitSystem) (actions : List WaitAction) : WaitSystem :=
  actions.foldl WaitSystem.step s

/-- The Go conversion `int64(n)` of a `uint64`. -/
def toInt64 (n : Nat) : Int :=
  if n % 2 ^ 64 < 2 ^ 63 then ((n % 2 ^ 64 : Nat) : Int) else ((n % 2 ^ 64 : Nat) : Int) - 2 ^ 64

/-- The Go conversion `uint64(i)` of an `int64`. -/
def toUint64 (i : Int) : Nat := (i % 2 ^ 64).toNat

/-- The watch that `createWatch` makes for the pattern `*.json` in a group with the files
`a.json` and `b.json`. -/
def jsonWatch : Watch :=
  { revision := 0, nspace := "default".toList, group := "svc".toList,
    filename := "*.json".toList, wildcard := true,
    files := ["a.json".toList, "b.json".toList] }

/-- The engine of `jsonWatch`: the two `watchFile` goroutines that `createWatch` has started,
both before their first call of `update`. -/
def jsonEngine : Engine :=
  { cell := WatchCell.ofWatch jsonWatch, pcs := [BumpPc.idle, BumpPc.idle] }

/-- A watch at the given revision, for the examples. -/
def watchAt (revision : Int) : WatchCell :=
  WatchCell.ofWatch { revision := revision, nspace := "default".toList, group := "svc".toList,
                      filename := "app".toList, wildcard := false, files := [] }

/-- The channels of a watch are in order: `cond` has been made and is open, the closed channels
have been made. -/
def WatchCell.WellFormed (w : WatchCell) : Prop :=
  w.cond < w.made ∧ w.cond ∉ w.closed ∧ ∀ c ∈ w.closed, c < w.made

/-- A watch that a single goroutine bumps: the goroutine is before a call of `update`, or has
evaluated the argument from the revision as it still is. -/
def Engine.Single (e : Engine) : Prop :=
  e.pcs = [BumpPc.idle] ∨ e.pcs = [BumpPc.evaluated (e.cell.watch.revision + 1)]

/-- The aggregate revision of the specification: the maximum revision over the watches. -/
def aggregateRevision (watches : List WatchCell) : Option Int :=
  (watches.map (fun w => w.watch.revision)).max?

/-- The states of a call of `WaitNext` on a watch that a single goroutine bumps: past the test
of the loop only with a revision greater than `lastRevision`. -/
def WaitSystem.Fresh (s : WaitSystem) : Prop :=
  s.engine.Single ∧ s.engine.cell.watch.wildcard = false ∧
  (s.waiter = WaitPc.send → s.lastRevision < s.engine.cell.watch.revision) ∧
  (∀ v, s.waiter = WaitPc.sent v → s.lastRevision < v)

/-! ## `sdk/confd.go`: the goroutines of `WatchPrefix`

`WatchPrefix` resolves a watch for every key, starts one call of `WaitNext` per watch, all with
`lastRevision = int64(waitIndex)` and one unbuffered channel `notify`, and then stands in a
`select` that receives from `notify` or from `ctx.Done()`. The goroutines that bump the watches
run all the while. A step of the system is a step of one of these goroutines. -/

/-- One watch resolved by `WatchPrefix`: the watch with the goroutines that bump it and the call
`v.WaitNext(ctx, c.sdk, int64(waitIndex), notify)` started for it, and, once that call has entered
its last `select` (lines 209-212), the value of `w.revision` it has evaluated there for the send
on `notify`: a `select` evaluates the operands of its cases once, on entering. -/
structure PrefixWatch where
  sys : WaitSystem
  offer : Option Int
  deriving DecidableEq, Repr

/-- What `WatchPrefix` returns from its `select` (lines 127-132): `uint64(nextRevision), nil` or
`0, ctx.Err()`. -/
inductive PrefixReturn where
  | revision (v : Nat)
  | ctxErr
  deriving DecidableEq, Repr

/-- The state of a call of `WatchPrefix` from line 121 on: the resolved watches, whether `ctx` has
been cancelled, and what the call has returned, if it has. -/
structure PrefixSystem where
  watches : List PrefixWatch
  ctxDone : Bool
  result : Option PrefixReturn
  deriving DecidableEq, Repr

/-- What the scheduler lets happen next: a step of goroutine `g` that bumps watch `i`; a step of
the `WaitNext` of watch `i`; the communication on `notify` between the `WaitNext` of watch `i` and
the `select` of `WatchPrefix`; the `ctx.Done()` case in the `WaitNext` of watch `i`; a value on
`stopChan`, upon which the goroutine of lines 110-117 calls `cancel()`; the `ctx.Done()` case of
the `select` of `WatchPrefix`. -/
inductive PrefixAction where
  | bump (i g : Nat)
  | wait (i : Nat)
  | receive (i : Nat)
  | cancel (i : Nat)
  | stop
  | done
  deriving DecidableEq, Repr

/-- One step of the system. -/
def PrefixSystem.step (s : PrefixSystem) : PrefixAction → PrefixSystem
  | PrefixAction.bump i g =>
    match s.watches[i]? with
    | none => s
    | some p =>
      { s with watches := s.watches.set i { p with sys := p.sys.step (WaitAction.bump g) } }
  | PrefixAction.wait i =>
    match s.watches[i]? with
    | none => s
    | some p =>
      match p.sys.waiter with
      | WaitPc.send =>
        -- past the loop: entering `select { case notify <- w.revision: ... }` evaluates
        -- `w.revision`; the send itself needs the receiver
        if p.offer = none then
          { s with
            watches :=
              s.watches.set i { p with offer := some p.sys.engine.cell.watch.revision } }
        else s
      | _ => { s with watches := s.watches.set i { p with sys := p.sys.wait } }
  | PrefixAction.receive i =>
    match s.result, s.watches[i]? with
    | none, some p =>
      match p.sys.waiter, p.offer with
      | WaitPc.send, some v =>
        -- case nextRevision := <-notify: return uint64(nextRevision), err
        -- and the deferred cancel() runs
        { watches := s.watches.set i { p with sys := { p.sys with waiter := WaitPc.sent v } },
          ctxDone := true,
          result := some (PrefixReturn.revision (toUint64 v)) }
      | _, _ => s
    | _, _ => s
  | PrefixAction.cancel i =>
    if s.ctxDone then
      match s.watches[i]? with
      | none => s
      | some p => { s with watches := s.watches.set i { p with sys := p.sys.cancel } }
    else s
  | PrefixAction.stop => { s with ctxDone := true }
  | PrefixAction.done =>
    -- case <-ctx.Done(): return 0, ctx.Err()
    if s.ctxDone = true ∧ s.result = none then { s with result := some PrefixReturn.ctxErr }
    else s

/-- The system after a list of steps. -/
def PrefixSystem.run (s : PrefixSystem) (schedule : List PrefixAction) : PrefixSystem :=
  schedule.foldl PrefixSystem.step s

/-- The system when `WatchPrefix` has started the calls of `WaitNext` (lines 121-125), `engines`
being the watches resolved for the keys with the goroutines that bump them. -/
def Confd.WatchPrefix.start (engines : List Engine) (waitIndex : Nat) : PrefixSystem :=
  { watches := engines.map (fun e =>
      { sys := { engine := e, lastRevision := toInt64 waitIndex, waiter := WaitPc.check },
        offer := none }),
    ctxDone := false,
    result := none }

/-- Go `func (c *Confd) WatchPrefix` from line 121 on, under a schedule of its goroutines: what it
returns; `none` while it stands in its `select`. -/
def Confd.WatchPrefix (engines : List Engine) (waitIndex : Nat)
    (schedule : List PrefixAction) : Option PrefixReturn :=
  ((Confd.WatchPrefix.start engines waitIndex).run schedule).result

/-- The revisions of the resolved watches. -/
def PrefixSystem.revisions (s : PrefixSystem) : List Int :=
  s.watches.map (fun p => p.sys.engine.cell.watch.revision)

/-! ## Theorems -/

open WeightRoundRobinBalance

/-! ### Go's `int` -/

theorem wrapInt_of_inRange (x : Int) (h : InRange x) : wrapInt x = x := by
  unfold InRange at h
  unfold wrapInt
  omega

theorem wrapInt_inRange (x : Int) : InRange (wrapInt x) := by
  unfold wrapInt InRange
  omega

theorem wrapInt_add_left (a b : Int) : wrapInt (wrapInt a + b) = wrapInt (a + b) := by
  unfold wrapInt
  omega

theorem wrapInt_sub_wrapInt (a b : Int) : wrapInt (wrapInt a - wrapInt b) = wrapInt (a - b) := by
  unfold wrapInt
  omega

theorem wrapInt_emod (x : Int) :
    wrapInt x % 18446744073709551616 = x % 18446744073709551616 := by
  unfold wrapInt
  omega

/-- Adding up a list in Go's `int` gives the sum of the list, wrapped once. -/
theorem foldl_wrapInt (l : List Int) (t : Int) :
    l.foldl (fun t e => wrapInt (t + e)) (wrapInt t) = wrapInt (t + l.sum) := by
  induction l generalizing t with
  | nil => simp
  | cons a l ih =>
    simp only [List.foldl_cons, List.sum_cons, wrapInt_add_left, ih]
    rw [add_assoc]

/-! ### The balancer -/

theorem loop_cons (w : WeightNode) (todo done : List WeightNode) (total : Int) (best : Option Nat) :
    Next.loop (w :: todo) done total best =
      Next.loop todo (done ++ [bump w]) (wrapInt (total + w.effectiveWeight))
        (match best with
          | none => some done.length
          | some b =>
            match (done ++ bump w :: todo)[b]? with
            | some bn => if (bump w).currentWeight > bn.currentWeight then some done.length else some b
            | none => some b) := by
  simp only [Next.loop, bump]

theorem loop_nodes (todo done : List WeightNode) (total : Int) (best : Option Nat) :
    (Next.loop todo done total best).1 = done ++ todo.map bump := by
  induction todo generalizing done total best with
  | nil => simp [Next.loop]
  | cons w todo ih =>
    rw [loop_cons, ih]
    simp

theorem loop_total (todo done : List WeightNode) (total : Int) (best : Option Nat) :
    (Next.loop todo done total best).2.1 =
      (todo.map (·.effectiveWeight)).foldl (fun t e => wrapInt (t + e)) total := by
  induction todo generalizing done total best with
  | nil => simp [Next.loop]
  | cons w todo ih =>
    rw [loop_cons, ih]
    simp

theorem loop_best (todo done : List WeightNode) (total : Int) (best : Option Nat)
    (h : IsFirstMax done best) :
    IsFirstMax (done ++ todo.map bump) (Next.loop todo done total best).2.2 := by
  induction todo generalizing done total best with
  | nil => simpa [Next.loop] using h
  | cons w todo ih =>
    rw [loop_cons]
    have key : ∀ best', IsFirstMax (done ++ [bump w]) best' →
        IsFirstMax (done ++ List.map bump (w :: todo))
          (Next.loop todo (done ++ [bump w]) (wrapInt (total + w.effectiveWeight)) best').2.2 := by
      intro best' h'
      have := ih (done ++ [bump w]) (wrapInt (total + w.effectiveWeight)) best' h'
      simpa using this
    apply key
    cases best with
    | none =>
      simp only [IsFirstMax] at h ⊢
      subst h
      refine ⟨bump w, by simp, ?_, ?_⟩
      · intro j n hj
        cases j with
        | zero => simp at hj; subst hj; exact le_refl _
        | succ j => simp at hj
      · intro j n hj; simp at hj
    | some b =>
      simp only [IsFirstMax] at h
      obtain ⟨nb, hnb, hmax, hfirst⟩ := h
      have hblt : b < done.length := by
        rcases List.getElem?_eq_some.1 hnb with ⟨hlt, _⟩
        exact hlt
      have hlook : (done ++ bump w :: todo)[b]? = some nb := by
        rw [List.getElem?_append_left hblt]; exact hnb
      simp only [hlook]
      by_cases hgt : (bump w).currentWeight > nb.currentWeight
      · simp only [hgt, if_true, IsFirstMax]
        refine ⟨bump w, by simp, ?_, ?_⟩
        · intro j n hj
          rcases lt_or_ge j done.length with hlt | hge
          · rw [List.getElem?_append_left hlt] at hj
            exact le_of_lt (lt_of_le_of_lt (hmax j n hj) hgt)
          · rw [List.getElem?_append_right hge] at hj
            cases hk : j - done.length with
            | zero => rw [hk] at hj; simp at hj; subst hj; exact le_refl _
            | succ k => rw [hk] at hj; simp at hj
        · intro j n hjlt hj
          rw [List.getElem?_append_left hjlt] at hj
          exact lt_of_le_of_lt (hmax j n hj) hgt
      · simp only [hgt, if_false, IsFirstMax]
        refine ⟨nb, by rw [List.getElem?_append_left hblt]; exact hnb, ?_, ?_⟩
        · intro j n hj
          rcases lt_or_ge j done.length with hlt | hge
          · rw [List.getElem?_append_left hlt] at hj
            exact hmax j n hj
          · rw [List.getElem?_append_right hge] at hj
            cases hk : j - done.length with
            | zero => rw [hk] at hj; simp at hj; subst hj; exact not_lt.1 hgt
            | succ k => rw [hk] at hj; simp at hj
        · intro j n hjlt hj
          rw [List.getElem?_append_left (lt_trans hjlt hblt)] at hj
          exact hfirst j n hjlt hj

theorem best_isFirstMax (r : WeightRoundRobinBalance) :
    IsFirstMax (r.rss.map bump) (Next.best r) := by
  have := loop_best r.rss [] 0 none rfl
  simpa [Next.best] using this

theorem loop_eq (r : WeightRoundRobinBalance) :
    Next.loop r.rss [] 0 none = (r.rss.map bump, r.totalWeight, Next.best r) := by
  have h1 := loop_nodes r.rss [] 0 none
  have h2 := loop_total r.rss [] 0 none
  ext1
  · simpa using h1
  · ext1
    · simpa [totalWeight] using h2
    · rfl

theorem best_eq_none_iff (r : WeightRoundRobinBalance) : Next.best r = none ↔ r.rss = [] := by
  have h := best_isFirstMax r
  constructor
  · intro hn
    rw [hn] at h
    simpa [IsFirstMax] using h
  · intro he
    cases hb : Next.best r with
    | none => rfl
    | some b =>
      rw [hb] at h
      obtain ⟨nb, hnb, _⟩ := h
      simp [he] at hnb

theorem best_some (r : WeightRoundRobinBalance) (b : Nat) (hb : Next.best r = some b) :
    ∃ nb, r.rss[b]? = some nb ∧
      (∀ (j : Nat) (n : WeightNode), r.rss[j]? = some n → (bump n).currentWeight ≤ (bump nb).currentWeight) ∧
      (∀ (j : Nat) (n : WeightNode), j < b → r.rss[j]? = some n → (bump n).currentWeight < (bump nb).currentWeight) := by
  have h := best_isFirstMax r
  rw [hb] at h
  obtain ⟨nb', hnb, hmax, hfirst⟩ := h
  rw [List.getElem?_map] at hnb
  cases hr : r.rss[b]? with
  | none => simp [hr] at hnb
  | some nb =>
    simp [hr] at hnb
    subst hnb
    refine ⟨nb, rfl, ?_, ?_⟩
    · intro j n hj
      exact hmax j (bump n) (by simp [List.getElem?_map, hj])
    · intro j n hlt hj
      exact hfirst j (bump n) hlt (by simp [List.getElem?_map, hj])

theorem Next_of_best (r : WeightRoundRobinBalance) (b : Nat) (nb : WeightNode)
    (hb : Next.best r = some b) (hnb : r.rss[b]? = some nb) :
    r.Next = ({ r with rss := (r.rss.map bump).set b (selectedNode nb r.totalWeight) },
              .ok nb.host) := by
  have hl : (r.rss.map bump)[b]? = some (bump nb) := by simp [List.getElem?_map, hnb]
  have hh : (bump nb).host = nb.host := by simp only [bump]; split <;> rfl
  have hw : (bump nb).Weight = nb.Weight := by simp only [bump]; split <;> rfl
  have hc : (bump nb).currentWeight = wrapInt (nb.currentWeight + nb.effectiveWeight) := by
    simp only [bump]; split <;> rfl
  simp only [Next, loop_eq, hb, hl, hh, hw, hc, selectedNode]

theorem Next_of_nil (r : WeightRoundRobinBalance) (h : r.rss = []) :
    r.Next = (r, .error "best is nil") := by
  have hb := (best_eq_none_iff r).2 h
  cases r
  simp_all [Next, Next.loop]

@[simp] theorem bump_currentWeight (n : WeightNode) :
    (bump n).currentWeight = wrapInt (n.currentWeight + n.effectiveWeight) := by
  simp only [bump]; split <;> rfl

@[simp] theorem bump_host (n : WeightNode) : (bump n).host = n.host := by
  simp only [bump]; split <;> rfl

@[simp] theorem bump_Weight (n : WeightNode) : (bump n).Weight = n.Weight := by
  simp only [bump]; split <;> rfl

theorem bump_effectiveWeight (n : WeightNode) :
    (bump n).effectiveWeight =
      if n.effectiveWeight < n.Weight then n.effectiveWeight + 1 else n.effectiveWeight := by
  simp only [bump]; split <;> rfl

/-- C1. For every non-empty node list, `Next` returns (without error) the host of a node whose
currentWeight, once the loop has increased the currentWeight of every node by its effectiveWeight
(Go's `+=` on `int`), is the maximum over all nodes; among the nodes attaining the maximum it is
the earliest in `Add` order. The returned node is the one the pointer `best` designates. Where no
such addition leaves the range of `int`, the increased currentWeight of a node is the integer sum
of its currentWeight and its effectiveWeight, and the returned node is the first one with the
greatest sum. -/
theorem Next_returns_first_maximum (r : WeightRoundRobinBalance) (hne : r.rss ≠ []) :
    ∃ (b : Nat) (nb : WeightNode), r.rss[b]? = some nb ∧ Next.best r = some b ∧
      r.Next.2 = .ok nb.host ∧
      (∀ (j : Nat) (n : WeightNode), r.rss[j]? = some n →
        wrapInt (n.currentWeight + n.effectiveWeight)
          ≤ wrapInt (nb.currentWeight + nb.effectiveWeight)) ∧
      (∀ (j : Nat) (n : WeightNode), j < b → r.rss[j]? = some n →
        wrapInt (n.currentWeight + n.effectiveWeight)
          < wrapInt (nb.currentWeight + nb.effectiveWeight)) ∧
      ((∀ n ∈ r.rss, InRange (n.currentWeight + n.effectiveWeight)) →
        (∀ (j : Nat) (n : WeightNode), r.rss[j]? = some n →
          n.currentWeight + n.effectiveWeight ≤ nb.currentWeight + nb.effectiveWeight) ∧
        (∀ (j : Nat) (n : WeightNode), j < b → r.rss[j]? = some n →
          n.currentWeight + n.effectiveWeight < nb.currentWeight + nb.effectiveWeight)) := by
  cases hb : Next.best r with
  | none => exact absurd ((best_eq_none_iff r).1 hb) hne
  | some b =>
    obtain ⟨nb, hnb, hmax, hfirst⟩ := best_some r b hb
    simp only [bump_currentWeight] at hmax hfirst
    refine ⟨b, nb, hnb, rfl, ?_, hmax, hfirst, ?_⟩
    · rw [Next_of_best r b nb hb hnb]
    · intro hex
      have hb' := wrapInt_of_inRange _ (hex nb (List.getElem?_mem hnb))
      constructor
      · intro j n hj
        have := hmax j n hj
        rwa [wrapInt_of_inRange _ (hex n (List.getElem?_mem hj)), hb'] at this
      · intro j n hlt hj
        have := hfirst j n hlt hj
        rwa [wrapInt_of_inRange _ (hex n (List.getElem?_mem hj)), hb'] at this

theorem Next_returns_first_maximum_witness :
    (build [⟨exHost 1, 2⟩, ⟨exHost 2, 5⟩, ⟨exHost 3, 5⟩]).rss ≠ [] ∧
    ∃ (b : Nat) (nb : WeightNode),
      (build [⟨exHost 1, 2⟩, ⟨exHost 2, 5⟩, ⟨exHost 3, 5⟩]).rss[b]? = some nb ∧
      Next.best (build [⟨exHost 1, 2⟩, ⟨exHost 2, 5⟩, ⟨exHost 3, 5⟩]) = some b ∧
      (build [⟨exHost 1, 2⟩, ⟨exHost 2, 5⟩, ⟨exHost 3, 5⟩]).Next.2 = .ok nb.host ∧
      (∀ (j : Nat) (n : WeightNode),
        (build [⟨exHost 1, 2⟩, ⟨exHost 2, 5⟩, ⟨exHost 3, 5⟩]).rss[j]? = some n →
        wrapInt (n.currentWeight + n.effectiveWeight)
          ≤ wrapInt (nb.currentWeight + nb.effectiveWeight)) ∧
      (∀ (j : Nat) (n : WeightNode), j < b →
        (build [⟨exHost 1, 2⟩, ⟨exHost 2, 5⟩, ⟨exHost 3, 5⟩]).rss[j]? = some n →
        wrapInt (n.currentWeight + n.effectiveWeight)
          < wrapInt (nb.currentWeight + nb.effectiveWeight)) ∧
      ((∀ n ∈ (build [⟨exHost 1, 2⟩, ⟨exHost 2, 5⟩, ⟨exHost 3, 5⟩]).rss,
          InRange (n.currentWeight + n.effectiveWeight)) →
        (∀ (j : Nat) (n : WeightNode),
          (build [⟨exHost 1, 2⟩, ⟨exHost 2, 5⟩, ⟨exHost 3, 5⟩]).rss[j]? = some n →
          n.currentWeight + n.effectiveWeight ≤ nb.currentWeight + nb.effectiveWeight) ∧
        (∀ (j : Nat) (n : WeightNode), j < b →
          (build [⟨exHost 1, 2⟩, ⟨exHost 2, 5⟩, ⟨exHost 3, 5⟩]).rss[j]? = some n →
          n.currentWeight + n.effectiveWeight < nb.currentWeight + nb.effectiveWeight)) :=
  ⟨by decide, Next_returns_first_maximum _ (by decide)⟩

/-- The nodes after one call of `Next`, index by index. -/
theorem Next_rss_getElem? (r : WeightRoundRobinBalance) (b : Nat) (hb : Next.best r = some b)
    (j : Nat) :
    r.Next.1.rss[j]? =
      (r.rss[j]?).map (fun n => if j = b then selectedNode n r.totalWeight else bump n) := by
  obtain ⟨nb, hnb, -, -⟩ := best_some r b hb
  rw [Next_of_best r b nb hb hnb]
  simp only [List.getElem?_set, List.getElem?_map]
  have hlt : b < r.rss.length := (List.getElem?_eq_some.1 hnb).1
  by_cases hj : b = j
  · subst hj
    simp [hlt, hnb]
  · have hj' : ¬ j = b := fun h => hj h.symm
    simp [hj, hj']

theorem Next_frame (r : WeightRoundRobinBalance) :
    r.Next.1.curIndex = r.curIndex ∧ r.Next.1.rsw = r.rsw := by
  cases hb : Next.best r with
  | none =>
    rw [Next_of_nil r ((best_eq_none_iff r).1 hb)]
    exact ⟨rfl, rfl⟩
  | some b =>
    obtain ⟨nb, hnb, -, -⟩ := best_some r b hb
    rw [Next_of_best r b nb hb hnb]
    exact ⟨rfl, rfl⟩

theorem sum_map_set {α : Type} (f : α → Int) (l : List α) (b : Nat) (x y : α)
    (h : l[b]? = some y) : ((l.set b x).map f).sum = (l.map f).sum - f y + f x := by
  induction l generalizing b with
  | nil => simp at h
  | cons a l ih =>
    cases b with
    | zero =>
      simp at h
      subst h
      simp
      ring
    | succ b =>
      simp at h
      simp only [List.set_cons_succ, List.map_cons, List.sum_cons, ih b h]
      ring

theorem totalWeight_eq (r : WeightRoundRobinBalance) :
    r.totalWeight = wrapInt r.sumEffective := by
  have h := foldl_wrapInt (r.rss.map (·.effectiveWeight)) 0
  have h0 : wrapInt 0 = 0 := by decide
  rw [h0, zero_add] at h
  exact h

theorem selectedNode_currentWeight (r : WeightRoundRobinBalance) (n : WeightNode) :
    (selectedNode n r.totalWeight).currentWeight =
      wrapInt (n.currentWeight + n.effectiveWeight - r.sumEffective) := by
  rw [totalWeight_eq]
  simp only [selectedNode]
  rw [wrapInt_sub_wrapInt]

theorem sum_bump (l : List WeightNode)
    (hex : ∀ n ∈ l, InRange (n.currentWeight + n.effectiveWeight)) :
    ((l.map bump).map (·.currentWeight)).sum =
      (l.map (·.currentWeight)).sum + (l.map (·.effectiveWeight)).sum := by
  induction l with
  | nil => simp
  | cons a l ih =>
    simp only [List.map_cons, List.sum_cons, ih (fun n hn => hex n (by simp [hn])),
      bump_currentWeight, wrapInt_of_inRange _ (hex a (by simp))]
    ring

theorem sum_bump_emod (l : List WeightNode) :
    ((l.map bump).map (·.currentWeight)).sum % 18446744073709551616 =
      ((l.map (·.currentWeight)).sum + (l.map (·.effectiveWeight)).sum)
        % 18446744073709551616 := by
  induction l with
  | nil => simp
  | cons a l ih =>
    simp only [List.map_cons, List.sum_cons, bump_currentWeight]
    have := wrapInt_emod (a.currentWeight + a.effectiveWeight)
    omega

/-- A call of `Next` in which no addition and no subtraction leaves the range of `int` keeps the
sum of the currentWeights. -/
theorem Next_sumCurrent (r : WeightRoundRobinBalance)
    (hex : ∀ n ∈ r.rss, InRange (n.currentWeight + n.effectiveWeight))
    (hsel : ∀ (b : Nat) (nb : WeightNode), Next.best r = some b → r.rss[b]? = some nb →
      InRange (nb.currentWeight + nb.effectiveWeight - r.sumEffective)) :
    r.Next.1.sumCurrent = r.sumCurrent := by
  cases hb : Next.best r with
  | none =>
    rw [Next_of_nil r ((best_eq_none_iff r).1 hb)]
  | some b =>
    obtain ⟨nb, hnb, -, -⟩ := best_some r b hb
    rw [Next_of_best r b nb hb hnb]
    have hl : (r.rss.map bump)[b]? = some (bump nb) := by simp [List.getElem?_map, hnb]
    simp only [sumCurrent]
    rw [sum_map_set _ _ b _ _ hl, sum_bump _ hex]
    simp only [selectedNode_currentWeight, bump_currentWeight,
      wrapInt_of_inRange _ (hsel b nb hb hnb),
      wrapInt_of_inRange _ (hex nb (List.getElem?_mem hnb))]
    simp only [sumEffective]
    ring

/-- Every call of `Next` keeps the sum of the currentWeights up to a multiple of `2^64`. -/
theorem Next_sumCurrent_emod (r : WeightRoundRobinBalance) :
    r.Next.1.sumCurrent % 18446744073709551616 = r.sumCurrent % 18446744073709551616 := by
  cases hb : Next.best r with
  | none =>
    rw [Next_of_nil r ((best_eq_none_iff r).1 hb)]
  | some b =>
    obtain ⟨nb, hnb, -, -⟩ := best_some r b hb
    rw [Next_of_best r b nb hb hnb]
    have hl : (r.rss.map bump)[b]? = some (bump nb) := by simp [List.getElem?_map, hnb]
    simp only [sumCurrent]
    rw [sum_map_set _ _ b _ _ hl]
    have h1 := sum_bump_emod r.rss
    have h2 := wrapInt_emod (nb.currentWeight + nb.effectiveWeight - r.sumEffective)
    have h3 := wrapInt_emod (nb.currentWeight + nb.effectiveWeight)
    simp only [selectedNode_currentWeight, bump_currentWeight]
    simp only [sumEffective] at h2 ⊢
    omega

theorem sum_nonpos (l : List Int) (h : ∀ x ∈ l, x ≤ 0) : l.sum ≤ 0 := by
  induction l with
  | nil => simp
  | cons a l ih =>
    simp only [List.sum_cons]
    have := h a (by simp)
    have := ih (fun x hx => h x (by simp [hx]))
    omega

theorem eq_zero_of_sum_eq_zero (l : List Int) (h : ∀ x ∈ l, 0 ≤ x) (hs : l.sum = 0) :
    ∀ x ∈ l, x = 0 := by
  induction l with
  | nil => simp
  | cons a l ih =>
    simp only [List.sum_cons] at hs
    have ha := h a (by simp)
    have hl : 0 ≤ l.sum := List.sum_nonneg (fun x hx => h x (by simp [hx]))
    have h0 : l.sum = 0 := by omega
    intro x hx
    rcases List.mem_cons.1 hx with rfl | hx
    · omega
    · exact ih (fun x hx => h x (by simp [hx])) h0 x hx

/-- The selected node has a positive currentWeight before `total` is subtracted, whenever no
addition of the loop leaves the range of `int` and the currentWeights the loop produces sum to a
positive number. -/
theorem best_positive (r : WeightRoundRobinBalance) (b : Nat) (nb : WeightNode)
    (hb : Next.best r = some b) (hnb : r.rss[b]? = some nb)
    (hex : ∀ n ∈ r.rss, InRange (n.currentWeight + n.effectiveWeight))
    (hpos : 0 < r.sumCurrent + r.sumEffective) :
    0 < nb.currentWeight + nb.effectiveWeight := by
  obtain ⟨nb', hnb', hmax, -⟩ := best_some r b hb
  rw [hnb] at hnb'
  cases hnb'
  by_contra hle
  have hle : nb.currentWeight + nb.effectiveWeight ≤ 0 := not_lt.1 hle
  have hall : ∀ x ∈ (r.rss.map bump).map (·.currentWeight), x ≤ 0 := by
    intro x hx
    simp only [List.mem_map] at hx
    obtain ⟨m, ⟨n, hn, rfl⟩, rfl⟩ := hx
    obtain ⟨j, hj⟩ := List.getElem?_of_mem hn
    have := hmax j n hj
    simp only [bump_currentWeight, wrapInt_of_inRange _ (hex n hn),
      wrapInt_of_inRange _ (hex nb (List.getElem?_mem hnb))] at this ⊢
    omega
  have := sum_nonpos _ hall
  rw [sum_bump _ hex] at this
  simp only [sumCurrent, sumEffective] at hpos
  omega

theorem foldl_Add_rss (hosts : List WeightHost) (r : WeightRoundRobinBalance) :
    (hosts.foldl WeightRoundRobinBalance.Add r).rss = r.rss ++ hosts.map freshNode ∧
    (hosts.foldl WeightRoundRobinBalance.Add r).curIndex = r.curIndex ∧
    (hosts.foldl WeightRoundRobinBalance.Add r).rsw = r.rsw := by
  induction hosts generalizing r with
  | nil => simp
  | cons h hosts ih =>
    simp only [List.foldl_cons, List.map_cons]
    obtain ⟨h1, h2, h3⟩ := ih (r.Add h)
    rw [h1, h2, h3]
    simp [WeightRoundRobinBalance.Add, freshNode]

theorem build_rss (hosts : List WeightHost) : (build hosts).rss = hosts.map freshNode := by
  simpa [build, WeightRoundRobinBalance.zero] using (foldl_Add_rss hosts WeightRoundRobinBalance.zero).1

theorem nextN_add (a b : Nat) (r : WeightRoundRobinBalance) :
    nextN (a + b) r = nextN b (nextN a r) := by
  induction b with
  | zero => rfl
  | succ b ih => rw [← Nat.add_assoc, nextN, ih, nextN]

theorem picks_add (a b : Nat) (r : WeightRoundRobinBalance) :
    picks (a + b) r = picks a r ++ picks b (nextN a r) := by
  induction b with
  | zero => simp [picks]
  | succ b ih => rw [← Nat.add_assoc, picks, ih, picks, nextN_add, List.append_assoc]

theorem sumEffective_of_pointwise (r : WeightRoundRobinBalance) (hosts : List WeightHost)
    (f : Nat → WeightHost → WeightNode) (hf : ∀ j h, (f j h).effectiveWeight = h.weight)
    (hr : ∀ j : Nat, r.rss[j]? = (hosts[j]?).map (f j)) :
    r.sumEffective = sumWeights hosts := by
  have : r.rss.map (·.effectiveWeight) = hosts.map (fun h => h.weight) := by
    apply List.ext_getElem?
    intro j
    simp only [List.getElem?_map, hr j]
    cases hosts[j]? with
    | none => rfl
    | some h => simp [hf]
  simp [sumEffective, sumWeights, this]

theorem weight_le_sum (hosts : List WeightHost) (hnn : ∀ h ∈ hosts, 0 ≤ h.weight)
    (h : WeightHost) (hmem : h ∈ hosts) : h.weight ≤ sumWeights hosts :=
  List.single_le_sum (fun x hx => by
    simp only [List.mem_map] at hx
    obtain ⟨h', hh', rfl⟩ := hx
    exact hnn h' hh') _ (List.mem_map_of_mem (fun h => h.weight) hmem)

theorem sumWeights_nonneg (hosts : List WeightHost) (hnn : ∀ h ∈ hosts, 0 ≤ h.weight) :
    0 ≤ sumWeights hosts := by
  apply List.sum_nonneg
  intro x hx
  simp only [List.mem_map] at hx
  obtain ⟨h, hh, rfl⟩ := hx
  exact hnn h hh

theorem sumCurrent_build (hosts : List WeightHost) : (build hosts).sumCurrent = 0 := by
  simp only [sumCurrent, build_rss]
  induction hosts with
  | nil => rfl
  | cons h hosts ih =>
    simp only [List.map_cons, List.sum_cons, ih]
    rfl

theorem bump_runNode (W : Int) (m c : Nat) (h : WeightHost)
    (hr : InRange ((runNode W m c h).currentWeight + (runNode W m c h).effectiveWeight)) :
    bump (runNode W m c h) = runNode W (m + 1) c h := by
  simp only [runNode] at hr
  simp only [bump, runNode, lt_irrefl, if_false, WeightNode.mk.injEq, true_and, and_true,
    wrapInt_of_inRange _ hr]
  push_cast
  ring

theorem selectedNode_runNode (W : Int) (m c : Nat) (h : WeightHost)
    (hr : InRange ((runNode W m c h).currentWeight + (runNode W m c h).effectiveWeight - W)) :
    selectedNode (runNode W m c h) (wrapInt W) = runNode W (m + 1) (c + 1) h := by
  simp only [runNode] at hr
  simp only [selectedNode, bump, runNode, lt_irrefl, if_false, WeightNode.mk.injEq, true_and,
    and_true, wrapInt_sub_wrapInt, wrapInt_of_inRange _ hr]
  push_cast
  ring

theorem balance_ext (r s : WeightRoundRobinBalance) (h1 : r.curIndex = s.curIndex)
    (h2 : r.rss = s.rss) (h3 : r.rsw = s.rsw) : r = s := by
  cases r; cases s; simp_all

theorem Next_rss_length (r : WeightRoundRobinBalance) : r.Next.1.rss.length = r.rss.length := by
  cases hb : Next.best r with
  | none => rw [Next_of_nil r ((best_eq_none_iff r).1 hb)]
  | some b =>
    obtain ⟨nb, hnb, -, -⟩ := best_some r b hb
    rw [Next_of_best r b nb hb hnb]
    simp

theorem nextN_rss_length (n : Nat) (r : WeightRoundRobinBalance) :
    (nextN n r).rss.length = r.rss.length := by
  induction n with
  | zero => rfl
  | succ n ih => rw [nextN, Next_rss_length, ih]

theorem sum_ge_of_lower (l : List Int) (W : Int) (hlow : ∀ y ∈ l, -W ≤ y) :
    -W * (l.length : Int) ≤ l.sum := by
  induction l with
  | nil => simp
  | cons a t ih =>
    have ha := hlow a (by simp)
    have ht := ih (fun y hy => hlow y (by simp [hy]))
    simp only [List.sum_cons, List.length_cons]
    push_cast
    nlinarith

theorem le_sum_of_lower (l : List Int) (W : Int) (hlow : ∀ y ∈ l, -W ≤ y) (x : Int)
    (hx : x ∈ l) : x ≤ l.sum + ((l.length : Int) - 1) * W := by
  induction l with
  | nil => simp at hx
  | cons a t ih =>
    have ha := hlow a (by simp)
    have hlow' : ∀ y ∈ t, -W ≤ y := fun y hy => hlow y (by simp [hy])
    simp only [List.sum_cons, List.length_cons]
    push_cast
    rcases List.mem_cons.1 hx with rfl | hxt
    · have := sum_ge_of_lower t W hlow'
      nlinarith
    · have := ih hlow' hxt
      nlinarith

/-- The bounds on the fields of a node that the invariant of a run gives: the effectiveWeight
lies in `[0, W]` and the currentWeight in `[-W, (n - 1) * W]`, for `n` hosts of total weight
`W`. -/
theorem node_bounds (r : WeightRoundRobinBalance) (hosts : List WeightHost)
    (hnn : ∀ h ∈ hosts, 0 ≤ h.weight) (m : Nat) (c : Nat → Nat)
    (hlen : r.rss.length = hosts.length) (hs : r.sumCurrent = 0)
    (hpt : ∀ j : Nat, r.rss[j]? = (hosts[j]?).map (runNode (sumWeights hosts) m (c j)))
    (hlow : 0 < sumWeights hosts → ∀ (j : Nat) (n : WeightNode), r.rss[j]? = some n →
      -(sumWeights hosts) < n.currentWeight)
    (j : Nat) (n : WeightNode) (hj : r.rss[j]? = some n) :
    0 ≤ n.effectiveWeight ∧ n.effectiveWeight ≤ sumWeights hosts ∧
    -(sumWeights hosts) ≤ n.currentWeight ∧
    n.currentWeight ≤ ((hosts.length : Int) - 1) * sumWeights hosts ∧
    1 ≤ (hosts.length : Int) := by
  have hp := hpt j
  rw [hj] at hp
  have hjlt : j < hosts.length := by
    rw [← hlen]
    exact (List.getElem?_eq_some.1 hj).1
  cases hh : hosts[j]? with
  | none => simp [hh] at hp
  | some h =>
    simp only [hh, Option.map_some', Option.some.injEq] at hp
    have hmem : h ∈ hosts := List.getElem?_mem hh
    have hw0 := hnn h hmem
    have hwW := weight_le_sum hosts hnn h hmem
    have he : n.effectiveWeight = h.weight := by rw [hp]; rfl
    have hc : n.currentWeight = (m : Int) * h.weight - sumWeights hosts * (c j : Int) := by
      rw [hp]; rfl
    rcases lt_or_eq_of_le (le_trans hw0 hwW) with hWpos | hW0
    · have hlow' : ∀ y ∈ r.rss.map (·.currentWeight), -(sumWeights hosts) ≤ y := by
        intro y hy
        simp only [List.mem_map] at hy
        obtain ⟨n', hn', rfl⟩ := hy
        obtain ⟨i, hi⟩ := List.getElem?_of_mem hn'
        exact le_of_lt (hlow hWpos i n' hi)
      have hmemc : n.currentWeight ∈ r.rss.map (·.currentWeight) :=
        List.mem_map_of_mem (·.currentWeight) (List.getElem?_mem hj)
      have hup := le_sum_of_lower _ _ hlow' _ hmemc
      simp only [sumCurrent] at hs
      rw [hs, List.length_map, hlen, zero_add] at hup
      exact ⟨by omega, by omega, le_of_lt (hlow hWpos j n hj), hup, by omega⟩
    · have hw : h.weight = 0 := by omega
      rw [he, hc, hw, ← hW0]
      refine ⟨le_refl _, le_refl _, by simp, by simp, by omega⟩

/-- The invariant of a run of `Next` on a balancer built by `Add` from `n` hosts with
non-negative weights of sum `W`, provided `n * W` is below `2^63`: the currentWeights sum to 0,
the node of host `h` has currentWeight `m * h.weight - W * c` after `m` calls of which `c`
selected it, and every currentWeight is above `-W` when `W` is positive. -/
theorem run_invariant (hosts : List WeightHost) (hnn : ∀ h ∈ hosts, 0 ≤ h.weight)
    (hB : (hosts.length : Int) * sumWeights hosts < 9223372036854775808) (m : Nat) :
    (nextN m (build hosts)).curIndex = 0 ∧ (nextN m (build hosts)).rsw = [] ∧
    (nextN m (build hosts)).sumCurrent = 0 ∧
    (∀ j : Nat, (nextN m (build hosts)).rss[j]? =
      (hosts[j]?).map (runNode (sumWeights hosts) m ((picks m (build hosts)).count j))) ∧
    (0 < sumWeights hosts →
      ∀ (j : Nat) (n : WeightNode), (nextN m (build hosts)).rss[j]? = some n →
        -(sumWeights hosts) < n.currentWeight) := by
  have hWnn : 0 ≤ sumWeights hosts := sumWeights_nonneg hosts hnn
  induction m with
  | zero =>
    refine ⟨?_, ?_, sumCurrent_build hosts, ?_, ?_⟩
    · exact (foldl_Add_rss hosts WeightRoundRobinBalance.zero).2.1
    · exact (foldl_Add_rss hosts WeightRoundRobinBalance.zero).2.2
    · intro j
      simp only [nextN, build_rss, List.getElem?_map, picks]
      cases hosts[j]? with
      | none => rfl
      | some h => simp [freshNode, runNode]
    · intro hWpos j n hj
      simp only [nextN, build_rss, List.getElem?_map] at hj
      cases hh : hosts[j]? with
      | none => simp [hh] at hj
      | some h =>
        simp [hh] at hj
        subst hj
        simp only [freshNode]
        omega
  | succ m ih =>
    obtain ⟨hc, hw, hs, hpt, hlow⟩ := ih
    have hlen : (nextN m (build hosts)).rss.length = hosts.length := by
      rw [nextN_rss_length, build_rss, List.length_map]
    have hS := sumEffective_of_pointwise (nextN m (build hosts)) hosts _
      (fun j h => by simp [runNode]) hpt
    have htot : (nextN m (build hosts)).totalWeight = wrapInt (sumWeights hosts) := by
      rw [totalWeight_eq, hS]
    have hbd := node_bounds (nextN m (build hosts)) hosts hnn m _ hlen hs hpt hlow
    -- no addition of the loop leaves the range of `int`
    have hex : ∀ n ∈ (nextN m (build hosts)).rss,
        InRange (n.currentWeight + n.effectiveWeight) := by
      intro n hn
      obtain ⟨j, hj⟩ := List.getElem?_of_mem hn
      obtain ⟨h1, h2, h3, h4, h5⟩ := hbd j n hj
      have hLW : 0 ≤ ((hosts.length : Int) - 1) * sumWeights hosts :=
        mul_nonneg (by omega) hWnn
      unfold InRange
      constructor <;> linarith
    -- nor does the subtraction of `total`
    have hsel : ∀ (b : Nat) (nb : WeightNode), Next.best (nextN m (build hosts)) = some b →
        (nextN m (build hosts)).rss[b]? = some nb →
        InRange (nb.currentWeight + nb.effectiveWeight - (nextN m (build hosts)).sumEffective) := by
      intro b nb hb hnb
      obtain ⟨h1, h2, h3, h4, h5⟩ := hbd b nb hnb
      have hLW : 0 ≤ ((hosts.length : Int) - 1) * sumWeights hosts :=
        mul_nonneg (by omega) hWnn
      rw [hS]
      unfold InRange
      rcases lt_or_eq_of_le hWnn with hWpos | hW0
      · have hbpos := best_positive _ b nb hb hnb hex (by rw [hs, hS]; omega)
        constructor <;> linarith
      · constructor <;> linarith
    obtain ⟨fc, fw⟩ := Next_frame (nextN m (build hosts))
    refine ⟨by rw [nextN, fc, hc], by rw [nextN, fw, hw],
      by rw [nextN, Next_sumCurrent _ hex hsel, hs], ?_, ?_⟩
    · intro j
      cases hb : Next.best (nextN m (build hosts)) with
      | none =>
        have hnil := (best_eq_none_iff _).1 hb
        have hj := hpt j
        simp only [nextN, Next_of_nil _ hnil, picks, hb, Option.toList, List.append_nil]
        rw [hnil] at hj ⊢
        cases hh : hosts[j]? with
        | none => simp
        | some h => simp [hh] at hj
      | some b =>
        simp only [nextN, Next_rss_getElem? _ b hb j, picks, hb, Option.toList, List.count_append,
          List.count_singleton]
        rw [hpt j, htot]
        cases hh : hosts[j]? with
        | none => simp
        | some h =>
          have hn : (nextN m (build hosts)).rss[j]? =
              some (runNode (sumWeights hosts) m ((picks m (build hosts)).count j) h) := by
            rw [hpt j, hh]; rfl
          by_cases hjb : j = b
          · subst hjb
            have hr := hsel j _ hb hn
            rw [hS] at hr
            simp [selectedNode_runNode _ _ _ _ hr]
          · have hbj : ¬ b = j := fun e => hjb e.symm
            have hr := hex _ (List.getElem?_mem hn)
            simp [hjb, hbj, bump_runNode _ _ _ _ hr]
    · intro hWpos j n' hj
      cases hb : Next.best (nextN m (build hosts)) with
      | none =>
        have hnil := (best_eq_none_iff _).1 hb
        simp only [nextN, Next_of_nil _ hnil] at hj
        exact hlow hWpos j n' hj
      | some b =>
        obtain ⟨nb, hnb, -, -⟩ := best_some _ b hb
        have hbpos := best_positive _ b nb hb hnb hex (by rw [hs, hS]; omega)
        simp only [nextN, Next_rss_getElem? _ b hb j] at hj
        cases hn : (nextN m (build hosts)).rss[j]? with
        | none => simp [hn] at hj
        | some n =>
          simp only [hn, Option.map_some'] at hj
          have hj := Option.some.inj hj
          by_cases hjb : j = b
          · subst hjb
            rw [hnb] at hn
            cases hn
            simp only [if_true] at hj
            subst hj
            have hr := hsel j nb hb hnb
            rw [selectedNode_currentWeight, wrapInt_of_inRange _ hr, hS]
            omega
          · simp only [hjb, if_false] at hj
            subst hj
            have hl := hlow hWpos j n hn
            obtain ⟨h1, -, -, -, -⟩ := hbd j n hn
            rw [bump_currentWeight, wrapInt_of_inRange _ (hex n (List.getElem?_mem hn))]
            omega

theorem picks_length (n : Nat) (r : WeightRoundRobinBalance) (hne : r.rss ≠ []) :
    (picks n r).length = n := by
  induction n with
  | zero => rfl
  | succ n ih =>
    rw [picks, List.length_append, ih]
    cases hb : Next.best (nextN n r) with
    | none =>
      have h0 := (best_eq_none_iff _).1 hb
      have hl := nextN_rss_length n r
      rw [h0] at hl
      exact absurd (List.length_eq_zero.1 hl.symm) hne
    | some b => rfl

theorem fresh_period_aux (hosts : List WeightHost) (hpos : ∀ h ∈ hosts, 0 < h.weight)
    (hB : (hosts.length : Int) * sumWeights hosts < 9223372036854775808)
    (m : Nat) (W : Int) (hW : W = sumWeights hosts) (hcast : (m : Int) = W) :
    nextN m (build hosts) = build hosts ∧
    ∀ (j : Nat) (h : WeightHost), hosts[j]? = some h →
      (((picks m (build hosts)).count j : Nat) : Int) = h.weight := by
  have hnn0 : ∀ h ∈ hosts, 0 ≤ h.weight := fun h hh => le_of_lt (hpos h hh)
  obtain ⟨hc, hw, hs, hpt, hlow⟩ := run_invariant hosts hnn0 hB m
  have hWnn : 0 ≤ W := hW ▸ sumWeights_nonneg hosts hnn0
  rw [← hW] at hpt hlow
  simp only [sumCurrent] at hs
  -- every current weight is a multiple of `W` above `-W`, hence nonnegative
  have hnn : ∀ x ∈ (nextN m (build hosts)).rss.map (·.currentWeight), 0 ≤ x := by
    intro x hx
    simp only [List.mem_map] at hx
    obtain ⟨n, hn, rfl⟩ := hx
    obtain ⟨j, hj⟩ := List.getElem?_of_mem hn
    have hp := hpt j
    rw [hj] at hp
    cases hh : hosts[j]? with
    | none => simp [hh] at hp
    | some h =>
      simp only [hh, Option.map_some'] at hp
      have hp := Option.some.inj hp
      have hWpos : 0 < W := by
        have := weight_le_sum hosts hnn0 h (List.getElem?_mem hh)
        have := hpos h (List.getElem?_mem hh)
        rw [hW]; omega
      have hl := hlow hWpos j n hj
      rw [hp] at hl ⊢
      simp only [runNode, hcast] at hl ⊢
      have hfac : W * h.weight - W * ((picks m (build hosts)).count j : Int)
          = W * (h.weight - ((picks m (build hosts)).count j : Int)) := by ring
      rw [hfac] at hl ⊢
      have : -1 < h.weight - ((picks m (build hosts)).count j : Int) := by
        by_contra hcon
        have hcon : h.weight - ((picks m (build hosts)).count j : Int) ≤ -1 := by omega
        have := mul_le_mul_of_nonneg_left hcon hWnn
        omega
      exact mul_nonneg hWnn (by omega)
  have hzero := eq_zero_of_sum_eq_zero _ hnn hs
  have hcount : ∀ (j : Nat) (h : WeightHost), hosts[j]? = some h →
      (((picks m (build hosts)).count j : Nat) : Int) = h.weight := by
    intro j h hh
    have hp := hpt j
    rw [hh] at hp
    simp only [Option.map_some'] at hp
    have hz := hzero _ (List.mem_map_of_mem (·.currentWeight) (List.getElem?_mem hp))
    simp only [runNode, hcast] at hz
    have hWpos : 0 < W := by
      have := weight_le_sum hosts hnn0 h (List.getElem?_mem hh)
      have := hpos h (List.getElem?_mem hh)
      rw [hW]; omega
    have hfac : W * (h.weight - ((picks m (build hosts)).count j : Int)) = 0 := by
      rw [← hz]; ring
    rcases mul_eq_zero.1 hfac with h0 | h0
    · omega
    · omega
  refine ⟨?_, hcount⟩
  apply balance_ext
  · rw [hc]; exact (foldl_Add_rss hosts WeightRoundRobinBalance.zero).2.1.symm
  · apply List.ext_getElem?
    intro j
    rw [hpt j, build_rss, List.getElem?_map]
    cases hh : hosts[j]? with
    | none => rfl
    | some h =>
      have := hcount j h hh
      simp only [Option.map_some', runNode, freshNode, hcast, this, Option.some.injEq,
        WeightNode.mk.injEq, true_and, and_true]
      ring
  · rw [hw]; exact (foldl_Add_rss hosts WeightRoundRobinBalance.zero).2.2.symm

/-- After `W` calls a fresh balancer is back in its initial state, and the node of every host
has been selected as often as its weight says. -/
theorem fresh_period (hosts : List WeightHost) (hpos : ∀ h ∈ hosts, 0 < h.weight)
    (hB : (hosts.length : Int) * sumWeights hosts < 9223372036854775808) :
    nextN (sumWeights hosts).toNat (build hosts) = build hosts ∧
    ∀ (j : Nat) (h : WeightHost), hosts[j]? = some h →
      (((picks (sumWeights hosts).toNat (build hosts)).count j : Nat) : Int) = h.weight :=
  fresh_period_aux hosts hpos hB _ _ rfl
    (Int.toNat_of_nonneg (sumWeights_nonneg hosts (fun h hh => le_of_lt (hpos h hh))))

/-- C3. Fairness. On a balancer freshly built by `Add` from `n` hosts with positive weights of
sum `W`, where `n * W` is below `2^63` so that no sum `Next` forms leaves the range of Go's `int`,
for every `k` the first `k * W` calls of `Next` each select a node, and they select the node of
every host `h` exactly `k * h.weight` times. -/
theorem Next_fairness (hosts : List WeightHost) (hpos : ∀ h ∈ hosts, 0 < h.weight)
    (hB : (hosts.length : Int) * sumWeights hosts < 9223372036854775808)
    (k i : Nat) (h : WeightHost) (hi : hosts[i]? = some h) :
    (picks (k * (sumWeights hosts).toNat) (build hosts)).length
        = k * (sumWeights hosts).toNat ∧
    (((picks (k * (sumWeights hosts).toNat) (build hosts)).count i : Nat) : Int)
        = (k : Int) * h.weight := by
  obtain ⟨hper, hcnt⟩ := fresh_period hosts hpos hB
  have hne : (build hosts).rss ≠ [] := by
    rw [build_rss]
    intro hnil
    have hmem : h ∈ hosts := List.getElem?_mem hi
    cases hosts with
    | nil => simp at hmem
    | cons a l => simp at hnil
  refine ⟨picks_length _ _ hne, ?_⟩
  have hboth : nextN (k * (sumWeights hosts).toNat) (build hosts) = build hosts ∧
      (((picks (k * (sumWeights hosts).toNat) (build hosts)).count i : Nat) : Int)
        = (k : Int) * h.weight := by
    induction k with
    | zero => simp [nextN, picks]
    | succ k ih =>
      obtain ⟨ih1, ih2⟩ := ih
      rw [Nat.succ_mul, nextN_add, picks_add, ih1, hper, List.count_append]
      refine ⟨rfl, ?_⟩
      push_cast
      rw [ih2, hcnt i h hi]
      ring
  exact hboth.2

theorem Next_fairness_witness :
    (∀ h ∈ [(⟨exHost 1, 5⟩ : WeightHost), ⟨exHost 2, 1⟩, ⟨exHost 3, 1⟩], 0 < h.weight) ∧
    (([(⟨exHost 1, 5⟩ : WeightHost), ⟨exHost 2, 1⟩, ⟨exHost 3, 1⟩].length : Int)
      * sumWeights [⟨exHost 1, 5⟩, ⟨exHost 2, 1⟩, ⟨exHost 3, 1⟩] < 9223372036854775808) ∧
    [(⟨exHost 1, 5⟩ : WeightHost), ⟨exHost 2, 1⟩, ⟨exHost 3, 1⟩][0]? = some ⟨exHost 1, 5⟩ ∧
    (picks (2 * (sumWeights [⟨exHost 1, 5⟩, ⟨exHost 2, 1⟩, ⟨exHost 3, 1⟩]).toNat)
      (build [⟨exHost 1, 5⟩, ⟨exHost 2, 1⟩, ⟨exHost 3, 1⟩])).length
        = 2 * (sumWeights [⟨exHost 1, 5⟩, ⟨exHost 2, 1⟩, ⟨exHost 3, 1⟩]).toNat ∧
    (((picks (2 * (sumWeights [⟨exHost 1, 5⟩, ⟨exHost 2, 1⟩, ⟨exHost 3, 1⟩]).toNat)
      (build [⟨exHost 1, 5⟩, ⟨exHost 2, 1⟩, ⟨exHost 3, 1⟩])).count 0 : Nat) : Int)
        = ((2 : Nat) : Int) * (⟨exHost 1, 5⟩ : WeightHost).weight :=
  ⟨by decide, by decide, by decide,
    Next_fairness [⟨exHost 1, 5⟩, ⟨exHost 2, 1⟩, ⟨exHost 3, 1⟩] (by decide) (by decide) 2 0
      ⟨exHost 1, 5⟩ (by decide)⟩

/-- On three hosts of weight `2^62` the run of `Next` is periodic from the second call on: three
more calls select the nodes 0, 1, 2 and lead back to the same state. -/
theorem bigHosts_cycle (k : Nat) :
    nextN (3 * k) (nextN 2 (build bigHosts)) = nextN 2 (build bigHosts) ∧
    (picks (3 * k) (nextN 2 (build bigHosts))).count 0 = k := by
  induction k with
  | zero => exact ⟨rfl, rfl⟩
  | succ k ih =>
    obtain ⟨h1, h2⟩ := ih
    have e : 3 * (k + 1) = 3 * k + 3 := by ring
    have h3 : nextN 3 (nextN 2 (build bigHosts)) = nextN 2 (build bigHosts) := by decide
    have h4 : picks 3 (nextN 2 (build bigHosts)) = [0, 1, 2] := by decide
    rw [e, nextN_add, picks_add, h1, List.count_append, h2, h3, h4]
    exact ⟨rfl, by simp⟩

/-- C3, counterexample. Three hosts of weight `2^62` have positive weights of sum
`W = 3 * 2^62`. Go's `int` wraps in the very first call of `Next` (`total` reaches `2^63`): the
first two calls select node 0, and from then on the calls select the nodes 0, 1, 2 in turn. The
first `1 * W` calls of `Next` therefore select node 0 `2^62 + 2` times, not `1 * 2^62` times. -/
theorem Next_fairness_wraps :
    (∀ h ∈ bigHosts, 0 < h.weight) ∧
    bigHosts[0]? = some ⟨exHost 1, 4611686018427387904⟩ ∧
    (sumWeights bigHosts).toNat = 13835058055282163712 ∧
    picks 5 (build bigHosts) = [0, 0, 0, 1, 2] ∧
    (picks (1 * (sumWeights bigHosts).toNat) (build bigHosts)).count 0
      = 4611686018427387906 ∧
    (((picks (1 * (sumWeights bigHosts).toNat) (build bigHosts)).count 0 : Nat) : Int)
      ≠ ((1 : Nat) : Int) * (⟨exHost 1, 4611686018427387904⟩ : WeightHost).weight := by
  have hW : (sumWeights bigHosts).toNat = 13835058055282163712 := by decide
  have hc : (picks (1 * (sumWeights bigHosts).toNat) (build bigHosts)).count 0
      = 4611686018427387906 := by
    have e : (13835058055282163712 : Nat) = 2 + (3 * 4611686018427387903 + 1) := by norm_num
    have h2 : picks 2 (build bigHosts) = [0, 0] := by decide
    have h1 : picks 1 (nextN 2 (build bigHosts)) = [0] := by decide
    rw [hW, Nat.one_mul, e, picks_add, picks_add, List.count_append, List.count_append,
      (bigHosts_cycle _).1, (bigHosts_cycle _).2, h2, h1]
    simp
  refine ⟨by decide, by decide, hW, by decide, hc, ?_⟩
  rw [hc]
  decide

theorem build_hosts (hosts : List WeightHost) :
    (build hosts).rss.map (·.host) = hosts.map (·.host) := by
  rw [build_rss, List.map_map]
  rfl

/-- C2. `Next` returns an error if and only if the node list is empty; on a non-empty node list
it returns the host of one of the nodes, which for a balancer built by `Add` is one of the hosts
that were added; `Get` is `Next`. -/
theorem Next_error_iff_empty (r : WeightRoundRobinBalance) (hosts : List WeightHost) :
    ((∃ e, r.Next.2 = Except.error e) ↔ r.rss = []) ∧
    (r.rss ≠ [] → ∃ h, r.Next.2 = Except.ok h ∧ h ∈ r.rss.map (·.host)) ∧
    (hosts ≠ [] → ∃ h, (build hosts).Next.2 = Except.ok h ∧ h ∈ hosts.map (·.host)) ∧
    r.Get = r.Next := by
  have hok : ∀ s : WeightRoundRobinBalance, s.rss ≠ [] →
      ∃ h, s.Next.2 = Except.ok h ∧ h ∈ s.rss.map (·.host) := by
    intro s hne
    cases hb : Next.best s with
    | none => exact absurd ((best_eq_none_iff s).1 hb) hne
    | some b =>
      obtain ⟨nb, hnb, -, -⟩ := best_some s b hb
      refine ⟨nb.host, by rw [Next_of_best s b nb hb hnb], ?_⟩
      exact List.mem_map_of_mem (·.host) (List.getElem?_mem hnb)
  refine ⟨⟨?_, ?_⟩, hok r, ?_, rfl⟩
  · rintro ⟨e, he⟩
    by_contra hne
    obtain ⟨h, hh, -⟩ := hok r hne
    rw [hh] at he
    cases he
  · intro hnil
    exact ⟨"best is nil", by rw [Next_of_nil r hnil]⟩
  · intro hne
    have : (build hosts).rss ≠ [] := by
      rw [build_rss]
      cases hosts with
      | nil => exact absurd rfl hne
      | cons a l => simp
    obtain ⟨h, hh, hmem⟩ := hok _ this
    exact ⟨h, hh, by rwa [build_hosts] at hmem⟩

theorem Next_error_iff_empty_witness :
    ((∃ e, (build [⟨exHost 1, 1⟩, ⟨exHost 2, 1⟩]).Next.2 = Except.error e) ↔
      (build [⟨exHost 1, 1⟩, ⟨exHost 2, 1⟩]).rss = []) ∧
    ((build [⟨exHost 1, 1⟩, ⟨exHost 2, 1⟩]).rss ≠ [] →
      ∃ h, (build [⟨exHost 1, 1⟩, ⟨exHost 2, 1⟩]).Next.2 = Except.ok h ∧
        h ∈ (build [⟨exHost 1, 1⟩, ⟨exHost 2, 1⟩]).rss.map (·.host)) ∧
    ([(⟨exHost 1, 1⟩ : WeightHost), ⟨exHost 2, 1⟩] ≠ [] →
      ∃ h, (build [⟨exHost 1, 1⟩, ⟨exHost 2, 1⟩]).Next.2 = Except.ok h ∧
        h ∈ [(⟨exHost 1, 1⟩ : WeightHost), ⟨exHost 2, 1⟩].map (·.host)) ∧
    (build [⟨exHost 1, 1⟩, ⟨exHost 2, 1⟩]).Get = (build [⟨exHost 1, 1⟩, ⟨exHost 2, 1⟩]).Next :=
  Next_error_iff_empty (build [⟨exHost 1, 1⟩, ⟨exHost 2, 1⟩]) [⟨exHost 1, 1⟩, ⟨exHost 2, 1⟩]

/-- What one call of `Next` does to the fields of a node other than its currentWeight. -/
theorem Next_node (r : WeightRoundRobinBalance) (j : Nat) (n : WeightNode)
    (hj : r.rss[j]? = some n) :
    ∃ n', r.Next.1.rss[j]? = some n' ∧ n'.host = n.host ∧ n'.Weight = n.Weight ∧
      n'.effectiveWeight =
        if n.effectiveWeight < n.Weight then n.effectiveWeight + 1 else n.effectiveWeight := by
  cases hb : Next.best r with
  | none =>
    have := (best_eq_none_iff r).1 hb
    rw [this] at hj
    simp at hj
  | some b =>
    rw [Next_rss_getElem? r b hb j, hj]
    by_cases hjb : j = b
    · simp [hjb, selectedNode, bump_effectiveWeight]
    · simp [hjb, bump_effectiveWeight]

theorem nextN_node (r : WeightRoundRobinBalance) (j : Nat) (n : WeightNode)
    (hj : r.rss[j]? = some n) (hle : n.effectiveWeight ≤ n.Weight) (m : Nat) :
    ∃ n', (nextN m r).rss[j]? = some n' ∧ n'.host = n.host ∧ n'.Weight = n.Weight ∧
      n'.effectiveWeight = min n.Weight (n.effectiveWeight + m) := by
  induction m with
  | zero => exact ⟨n, hj, rfl, rfl, by simp [hle]⟩
  | succ m ih =>
    obtain ⟨n1, h1, hh, hw, he⟩ := ih
    obtain ⟨n2, h2, hh2, hw2, he2⟩ := Next_node (nextN m r) j n1 h1
    refine ⟨n2, h2, hh2.trans hh, hw2.trans hw, ?_⟩
    rw [he2, he, hw]
    push_cast
    split <;> omega

theorem picks_length_le (m : Nat) (r : WeightRoundRobinBalance) : (picks m r).length ≤ m := by
  induction m with
  | zero => simp [picks]
  | succ m ih =>
    rw [picks, List.length_append]
    cases Next.best (nextN m r) <;> simp [Option.toList] <;> omega

/-- C4, as amended. A node whose effectiveWeight `e` is below its weight `w` has effectiveWeight
`min w (e + m)` after `m` further calls of `Next` on the balancer, whichever nodes these calls
return: it is back at `w` exactly when `m` is at least `w - e` and below `w` exactly when `m` is
smaller; in particular it is at `w` once the node has been selected `w - e` times. -/
theorem selfHealing_by_calls (r : WeightRoundRobinBalance) (i : Nat) (n : WeightNode)
    (hi : r.rss[i]? = some n) (hlt : n.effectiveWeight < n.Weight) (m : Nat) :
    ∃ n', (nextN m r).rss[i]? = some n' ∧ n'.Weight = n.Weight ∧
      n'.effectiveWeight = min n.Weight (n.effectiveWeight + m) ∧
      (n'.effectiveWeight = n'.Weight ↔ n.Weight - n.effectiveWeight ≤ (m : Int)) ∧
      (n'.effectiveWeight < n'.Weight ↔ (m : Int) < n.Weight - n.effectiveWeight) ∧
      (n.Weight - n.effectiveWeight ≤ ((picks m r).count i : Int) →
        n'.effectiveWeight = n'.Weight) := by
  obtain ⟨n', h1, -, hw, he⟩ := nextN_node r i n hi (le_of_lt hlt) m
  refine ⟨n', h1, hw, he, ?_, ?_, ?_⟩
  · rw [he, hw]; constructor <;> intro h <;> omega
  · rw [he, hw]; constructor <;> intro h <;> omega
  · intro hc
    have h1 : (picks m r).count i ≤ (picks m r).length := List.count_le_length _ _
    have h2 := picks_length_le m r
    rw [he, hw]
    omega

theorem selfHealing_by_calls_witness :
    healExample.rss[0]? = some ⟨exHost 1, 3, 0, 1⟩ ∧
    (⟨exHost 1, 3, 0, 1⟩ : WeightNode).effectiveWeight < (⟨exHost 1, 3, 0, 1⟩ : WeightNode).Weight ∧
    ∃ n', (nextN 2 healExample).rss[0]? = some n' ∧
      n'.Weight = (⟨exHost 1, 3, 0, 1⟩ : WeightNode).Weight ∧
      n'.effectiveWeight = min (⟨exHost 1, 3, 0, 1⟩ : WeightNode).Weight
        ((⟨exHost 1, 3, 0, 1⟩ : WeightNode).effectiveWeight + (2 : Nat)) ∧
      (n'.effectiveWeight = n'.Weight ↔
        (⟨exHost 1, 3, 0, 1⟩ : WeightNode).Weight
          - (⟨exHost 1, 3, 0, 1⟩ : WeightNode).effectiveWeight ≤ ((2 : Nat) : Int)) ∧
      (n'.effectiveWeight < n'.Weight ↔
        ((2 : Nat) : Int) < (⟨exHost 1, 3, 0, 1⟩ : WeightNode).Weight
          - (⟨exHost 1, 3, 0, 1⟩ : WeightNode).effectiveWeight) ∧
      ((⟨exHost 1, 3, 0, 1⟩ : WeightNode).Weight
          - (⟨exHost 1, 3, 0, 1⟩ : WeightNode).effectiveWeight
          ≤ ((picks 2 healExample).count 0 : Int) →
        n'.effectiveWeight = n'.Weight) :=
  ⟨by decide, by decide, selfHealing_by_calls healExample 0 _ (by decide) (by decide) 2⟩

/-- C4, counterexample. Node 0 of `healExample` has weight 3 and effectiveWeight 1. The next two
calls of `Next` both return node 1, so node 0 has been selected zero times, fewer than
`3 - 1 = 2`, and yet its effectiveWeight is already back at 3. -/
theorem selfHealing_by_selections_counterexample :
    healExample.rss[0]? = some ⟨exHost 1, 3, 0, 1⟩ ∧
    picks 2 healExample = [1, 1] ∧
    (picks 2 healExample).count 0 = 0 ∧
    (nextN 2 healExample).rss[0]? = some ⟨exHost 1, 3, 3, 3⟩ := by
  decide


/-! ### The range of the currentWeights -/

/-- On a balancer built by `Add` from `n` hosts with positive weights of sum `W`, `n * W` below
`2^63`, every currentWeight stays strictly between `-W` and `n * W`, whatever the number of calls
of `Next`: no sum that `Next` forms leaves the range of `int`. -/
theorem run_in_range (hosts : List WeightHost) (hpos : ∀ h ∈ hosts, 0 < h.weight)
    (hB : (hosts.length : Int) * sumWeights hosts < 9223372036854775808) (m j : Nat)
    (n : WeightNode) (hj : (nextN m (build hosts)).rss[j]? = some n) :
    -(sumWeights hosts) < n.currentWeight ∧
    n.currentWeight < (hosts.length : Int) * sumWeights hosts ∧
    InRange (n.currentWeight + n.effectiveWeight) := by
  have hnn0 : ∀ h ∈ hosts, 0 ≤ h.weight := fun h hh => le_of_lt (hpos h hh)
  obtain ⟨-, -, hs, hpt, hlow⟩ := run_invariant hosts hnn0 hB m
  have hlen : (nextN m (build hosts)).rss.length = hosts.length := by
    rw [nextN_rss_length, build_rss, List.length_map]
  obtain ⟨h1, h2, h3, h4, h5⟩ := node_bounds _ hosts hnn0 m _ hlen hs hpt hlow j n hj
  have hWpos : 0 < sumWeights hosts := by
    have h2 := hpt j
    rw [hj] at h2
    cases hh : hosts[j]? with
    | none => simp [hh] at h2
    | some h =>
      have := weight_le_sum hosts hnn0 h (List.getElem?_mem hh)
      have := hpos h (List.getElem?_mem hh)
      omega
  have hLW : 0 ≤ ((hosts.length : Int) - 1) * sumWeights hosts :=
    mul_nonneg (by omega) (le_of_lt hWpos)
  refine ⟨hlow hWpos j n hj, by linarith, ?_⟩
  unfold InRange
  constructor <;> linarith

/-- Without the bound the sums wrap around: on three hosts of weight `2^62` the first call of
`Next` leaves the currentWeights `-2^63, 2^62, 2^62`, the second `0, -2^63, -2^63`, the first five
calls select the nodes 0, 0, 0, 1, 2, and the state after five calls is the state after two. -/
theorem run_wraps :
    (nextN 1 (build bigHosts)).rss.map (·.currentWeight)
      = [-9223372036854775808, 4611686018427387904, 4611686018427387904] ∧
    (nextN 2 (build bigHosts)).rss.map (·.currentWeight)
      = [0, -9223372036854775808, -9223372036854775808] ∧
    picks 5 (build bigHosts) = [0, 0, 0, 1, 2] ∧
    nextN 5 (build bigHosts) = nextN 2 (build bigHosts) := by
  decide

/-! ### The file watcher -/

open ConfigFilesWatcher

/-- The event of `Run.step`: the classification of the stored content against the new content. -/
theorem step_eq (decrypt : ConfigFile → Except String String) (watchFiles : WatchFiles)
    (configFile : ConfigFile) (newfileResp : ConfigFileResponse) (newContent : String)
    (hnew : Run.newContent decrypt newfileResp = some newContent) :
    Run.step decrypt watchFiles configFile (some newfileResp) =
      some (watchFiles.set configFile.FileName
              { FileName := configFile.FileName, Namespace := configFile.Namespace,
                Group := configFile.Group, Version := configFile.GetVersion, content := "" },
            Run.event newfileResp.ConfigFile (watchFiles.get configFile.FileName).content
              newContent) := by
  simp only [Run.step, hnew]

/-- C5. Transition classification in `Run`: with `old` the content stored for the notified file
and `new` the content fetched for it, an event is published, and it is `Added` with old value
`""` and new value `new` when `old` is the sentinel and `new` is real content, `Deleted` with old
value `old` and new value `""` when `old` is real and `new` is the sentinel, `Modified` with old
value `old` and new value `new` when both are real and differ, and `NotChanged` when both are the
same real content. -/
theorem Run_transition_classification (decrypt : ConfigFile → Except String String)
    (watchFiles : WatchFiles) (configFile : ConfigFile) (newfileResp : ConfigFileResponse)
    (old new : String) (hold : (watchFiles.get configFile.FileName).content = old)
    (hnew : Run.newContent decrypt newfileResp = some new) :
    ∃ (watchFiles' : WatchFiles) (event : ConfigFileChangeEvent),
      Run.step decrypt watchFiles configFile (some newfileResp) = some (watchFiles', event) ∧
      (old = NotExistedFileContent → new ≠ NotExistedFileContent →
        event.ChangeType = ChangeType.Added ∧ event.OldValue = "" ∧ event.NewValue = new) ∧
      (old ≠ NotExistedFileContent → new = NotExistedFileContent →
        event.ChangeType = ChangeType.Deleted ∧ event.OldValue = old ∧ event.NewValue = "") ∧
      (old ≠ NotExistedFileContent → new ≠ NotExistedFileContent → old ≠ new →
        event.ChangeType = ChangeType.Modified ∧ event.OldValue = old ∧ event.NewValue = new) ∧
      (old ≠ NotExistedFileContent → new = old →
        event.ChangeType = ChangeType.NotChanged ∧ event.OldValue = old ∧
          event.NewValue = old) := by
  refine ⟨_, _, step_eq decrypt watchFiles configFile newfileResp new hnew, ?_, ?_, ?_, ?_⟩
  · intro h1 h2
    simp [Run.event, hold, h1, h2]
  · intro h1 h2
    simp [Run.event, hold, h1, h2]
  · intro h1 h2 h3
    simp [Run.event, hold, h1, h2, h3]
  · intro h1 h2
    subst h2
    simp [Run.event, hold, h1]

theorem Run_transition_classification_witness :
    ((absentWatchFiles "default" "svc" "cfg-0.json").get
        (notified "default" "svc" "cfg-0.json" "1").FileName).content = NotExistedFileContent ∧
    Run.newContent (fun _ => Except.error "not support algo")
        (fetched "default" "svc" "cfg-0.json" "A" "1") = some "A" ∧
    ∃ (watchFiles' : WatchFiles) (event : ConfigFileChangeEvent),
      Run.step (fun _ => Except.error "not support algo")
          (absentWatchFiles "default" "svc" "cfg-0.json")
          (notified "default" "svc" "cfg-0.json" "1")
          (some (fetched "default" "svc" "cfg-0.json" "A" "1")) = some (watchFiles', event) ∧
      (NotExistedFileContent = NotExistedFileContent → "A" ≠ NotExistedFileContent →
        event.ChangeType = ChangeType.Added ∧ event.OldValue = "" ∧ event.NewValue = "A") ∧
      (NotExistedFileContent ≠ NotExistedFileContent → "A" = NotExistedFileContent →
        event.ChangeType = ChangeType.Deleted ∧ event.OldValue = NotExistedFileContent ∧
          event.NewValue = "") ∧
      (NotExistedFileContent ≠ NotExistedFileContent → "A" ≠ NotExistedFileContent →
          NotExistedFileContent ≠ "A" →
        event.ChangeType = ChangeType.Modified ∧ event.OldValue = NotExistedFileContent ∧
          event.NewValue = "A") ∧
      (NotExistedFileContent ≠ NotExistedFileContent → "A" = NotExistedFileContent →
        event.ChangeType = ChangeType.NotChanged ∧ event.OldValue = NotExistedFileContent ∧
          event.NewValue = NotExistedFileContent) :=
  ⟨by decide, by decide,
    Run_transition_classification (fun _ => Except.error "not support algo")
      (absentWatchFiles "default" "svc" "cfg-0.json") (notified "default" "svc" "cfg-0.json" "1")
      (fetched "default" "svc" "cfg-0.json" "A" "1") NotExistedFileContent "A" (by decide)
      (by decide)⟩

/-- The sentinel reaches an event only when both the stored and the new content are the
sentinel. -/
theorem event_sentinel_iff (metadata : Option ConfigFile) (old new : String) :
    ((Run.event metadata old new).OldValue = NotExistedFileContent ∨
      (Run.event metadata old new).NewValue = NotExistedFileContent) ↔
    (old = NotExistedFileContent ∧ new = NotExistedFileContent) := by
  have hs : ("" : String) ≠ NotExistedFileContent := by decide
  by_cases h1 : old = NotExistedFileContent <;> by_cases h2 : new = NotExistedFileContent
  · subst h1; subst h2; simp [Run.event]
  · subst h1; simp [Run.event, h2, hs]
  · subst h2; simp [Run.event, h1, hs]
  · by_cases h3 : old = new
    · simp [Run.event, h1, h2, h3]
    · simp [Run.event, h1, h2, h3]

/-- C6. The sentinel is exposed: for a file that was absent when the watch was set up (stored
content the sentinel) and that `GetConfigFile` reports as not found, `Run` publishes a
`NotChanged` event whose old and new value are both `"@@not_existed@@"`. -/
theorem Run_exposes_sentinel :
    (Run.step (fun _ => Except.error "not support algo")
        (absentWatchFiles "default" "svc" "cfg-0.json")
        (notified "default" "svc" "cfg-0.json" "1") (some notFound)).map (fun p => p.2) =
      some { ConfigFileMetadata := none, OldValue := "@@not_existed@@",
             NewValue := "@@not_existed@@", ChangeType := ChangeType.NotChanged } := by
  decide

/-- After every change that `Run` processes, the content stored for the file is `""`. -/
theorem step_stores_empty (decrypt : ConfigFile → Except String String) (watchFiles : WatchFiles)
    (configFile : ConfigFile) (newfileResp : Option ConfigFileResponse)
    (watchFiles' : WatchFiles) (event : ConfigFileChangeEvent)
    (h : Run.step decrypt watchFiles configFile newfileResp = some (watchFiles', event)) :
    (watchFiles'.get configFile.FileName).content = "" := by
  cases newfileResp with
  | none => simp [Run.step] at h
  | some resp =>
    cases hn : Run.newContent decrypt resp with
    | none => simp [Run.step, hn] at h
    | some newContent =>
      rw [step_eq decrypt watchFiles configFile resp newContent hn] at h
      simp only [Option.some.injEq, Prod.mk.injEq] at h
      rw [← h.1]
      simp [WatchFiles.get, WatchFiles.set]

/-- C7. The stored content is lost. The file `cfg-0.json` is absent at first, then
`\x7b"x":1\x7d` is published, then `\x7b"x":2\x7d`. The first event is `Added` with new value
`\x7b"x":1\x7d`; the content stored after it is `""`, not the new content; so the second event is
`Modified` with old value `""`, which is not the new value of the first event. -/
theorem Run_forgets_content :
    ∃ (watchFiles1 watchFiles2 : WatchFiles) (event1 event2 : ConfigFileChangeEvent),
      Run.step (fun _ => Except.error "not support algo")
          (absentWatchFiles "default" "svc" "cfg-0.json")
          (notified "default" "svc" "cfg-0.json" "1")
          (some (fetched "default" "svc" "cfg-0.json" "\x7b\"x\":1\x7d" "1"))
        = some (watchFiles1, event1) ∧
      Run.step (fun _ => Except.error "not support algo") watchFiles1
          (notified "default" "svc" "cfg-0.json" "2")
          (some (fetched "default" "svc" "cfg-0.json" "\x7b\"x\":2\x7d" "2"))
        = some (watchFiles2, event2) ∧
      event1.ChangeType = ChangeType.Added ∧ event1.OldValue = "" ∧
      event1.NewValue = "\x7b\"x\":1\x7d" ∧
      (watchFiles1.get "cfg-0.json").content = "" ∧
      event2.ChangeType = ChangeType.Modified ∧ event2.OldValue = "" ∧
      event2.NewValue = "\x7b\"x\":2\x7d" ∧
      event2.OldValue ≠ event1.NewValue := by
  refine ⟨_, _, _, _, rfl, rfl, ?_, ?_, ?_, ?_, ?_, ?_, ?_, ?_⟩ <;> decide


/-! ### Wildcards and keys -/

theorem regexpMatchStar_true (s : List Char) : regexpMatchStar (fun _ => true) s = true := by
  cases s <;> simp [regexpMatchStar]

/-- The test `match(wildCardToRegexp("*"), fileName)` of `createWatch` and `GetValues` holds
exactly for the names that contain a dot. -/
theorem matchValue_star_iff (fileName : List Char) :
    matchValue (wildCardToRegexp ['*']) fileName = true ↔ '.' ∈ fileName := by
  have hre : regexpParse (wildCardToRegexp (wildCardToRegexp ['*']))
      = some [RegexpItem.lit '.', RegexpItem.anyStar] := by decide
  simp only [matchValue, regexpMatchStringOf, hre]
  have hhere : ∀ s : List Char, regexpMatchHere [RegexpItem.lit '.', RegexpItem.anyStar] s
      = match s with
        | [] => false
        | x :: _ => decide (x = '.') := by
    intro s
    cases s with
    | nil => rfl
    | cons x xs =>
      have : regexpMatchHere [] = fun _ => true := by funext s; cases s <;> rfl
      simp [regexpMatchHere, this, regexpMatchStar_true]
  induction fileName with
  | nil => simp [regexpMatchString, hhere]
  | cons x xs ih =>
    simp only [regexpMatchString, hhere, Bool.or_eq_true, decide_eq_true_eq, ih, List.mem_cons]
    constructor
    · rintro (h | h)
      · exact Or.inl h.symm
      · exact Or.inr h
    · rintro (h | h)
      · exact Or.inl h.symm
      · exact Or.inr h

/-- C8. Wildcard detection goes by the dot, not by the star. For the name `app.json`, which
contains no `*`, `createWatch` sets the wildcard flag and watches every file of the group listing
whose name contains `app.json`; for the name `app*`, which contains a `*`, it leaves the flag
false and starts the single watcher of a file called `app*`. -/
theorem createWatch_wildcard_by_dot :
    '*' ∉ "app.json".toList ∧
    Confd.createWatch (.ok ["app.json".toList, "app.json.bak".toList, "b.json".toList])
        "default".toList "svc".toList "app.json".toList
      = .ok ({ revision := 0, nspace := "default".toList, group := "svc".toList,
               filename := "app.json".toList, wildcard := true,
               files := ["app.json".toList, "app.json.bak".toList] },
             ["app.json".toList, "app.json.bak".toList]) ∧
    '*' ∈ "app*".toList ∧
    Confd.createWatch (.ok ["app.json".toList, "app.json.bak".toList, "b.json".toList])
        "default".toList "svc".toList "app*".toList
      = .ok ({ revision := 0, nspace := "default".toList, group := "svc".toList,
               filename := "app*".toList, wildcard := false, files := [] },
             ["app*".toList]) := by
  refine ⟨by decide, ?_, by decide, ?_⟩ <;> rfl

/-- C10. The key `/prod/prod/f` has namespace `prod`, group `prod` and file name `f`, but
`parseKey("", "/prod/prod/f")` returns the group `default`: the namespace is trimmed a second
time, off the front of the remaining `prod/f`. -/
theorem parseKey_trims_group :
    parseKey [] ("/" ++ "prod" ++ "/" ++ "prod" ++ "/" ++ "f").toList
      = some ("prod".toList, "default".toList, "f".toList) ∧
    parseKey [] ("/" ++ "a" ++ "/" ++ "ab" ++ "/" ++ "c").toList
      = some ("a".toList, "b".toList, "c".toList) := by
  decide

/-! ### Glob patterns -/

theorem splitAll_ne_nil (sep : Char) (s : List Char) : splitAll sep s ≠ [] := by
  cases s with
  | nil => simp [splitAll]
  | cons c s =>
    simp only [splitAll]
    split
    · simp
    · split <;> simp

theorem splitAll_of_not_mem (sep : Char) (s : List Char) (h : sep ∉ s) :
    splitAll sep s = [s] := by
  induction s with
  | nil => rfl
  | cons c s ih =>
    have hc : c ≠ sep := fun e => h (by simp [e])
    have hs : sep ∉ s := fun e => h (by simp [e])
    simp [splitAll, hc, ih hs]

theorem splitAll_append (sep : Char) (pre post : List Char) (h : sep ∉ pre) :
    splitAll sep (pre ++ sep :: post) = pre :: splitAll sep post := by
  induction pre with
  | nil => simp [splitAll]
  | cons c pre ih =>
    have hc : c ≠ sep := fun e => h (by simp [e])
    have hs : sep ∉ pre := fun e => h (by simp [e])
    simp [splitAll, hc, ih hs]

/-- A string that contains the separator, cut at its first occurrence. -/
theorem cut_at_first (sep : Char) (s : List Char) (h : sep ∈ s) :
    s = s.takeWhile (fun c => c ≠ sep) ++ sep :: (s.dropWhile (fun c => c ≠ sep)).drop 1 ∧
    sep ∉ s.takeWhile (fun c => c ≠ sep) := by
  induction s with
  | nil => simp at h
  | cons c s ih =>
    by_cases hc : c = sep
    · subst hc
      simp
    · have hs : sep ∈ s := by
        rcases List.mem_cons.1 h with e | e
        · exact absurd e.symm hc
        · exact e
      obtain ⟨h1, h2⟩ := ih hs
      have hne : sep ≠ c := fun e => hc e.symm
      refine ⟨?_, ?_⟩
      · simp only [List.takeWhile_cons, List.dropWhile_cons, hc, ne_eq, not_false_eq_true,
          decide_True, if_true, List.cons_append]
        exact congrArg (c :: ·) h1
      · simp only [List.takeWhile_cons, hc, ne_eq, not_false_eq_true, decide_True, if_true,
          List.mem_cons, not_or]
        exact ⟨hne, h2⟩

theorem stringsSplitN_eq_splitAll (sep : Char) (n : Nat) (s : List Char)
    (h : s.count sep ≤ n) : stringsSplitN sep (n + 1) s = splitAll sep s := by
  induction n generalizing s with
  | zero =>
    have hs : sep ∉ s := by
      intro hmem
      have := List.count_pos_iff.2 hmem
      omega
    rw [splitAll_of_not_mem sep s hs]
    rfl
  | succ n ih =>
    by_cases hs : sep ∈ s
    · obtain ⟨h1, h2⟩ := cut_at_first sep s hs
      have hcount : ((s.dropWhile (fun c => c ≠ sep)).drop 1).count sep ≤ n := by
        have hc := congrArg (List.count sep) h1
        rw [List.count_append, List.count_cons_self, List.count_eq_zero_of_not_mem h2] at hc
        omega
      rw [stringsSplitN, if_pos hs, ih _ hcount]
      conv_rhs => rw [h1]
      rw [splitAll_append sep _ _ h2]
    · rw [stringsSplitN, if_neg hs, splitAll_of_not_mem sep s hs]

theorem stringsSplit_eq_splitAll (sep : Char) (s : List Char) :
    stringsSplit sep s = splitAll sep s :=
  stringsSplitN_eq_splitAll sep _ s (le_refl _)

theorem wildCardToRegexp_loop_succ (pieces : List (List Char)) (i : Nat) (result : List Char) :
    wildCardToRegexp.loop pieces (i + 1) result = result ++ joinRest pieces := by
  induction pieces generalizing i result with
  | nil => simp [wildCardToRegexp.loop, joinRest]
  | cons piece pieces ih =>
    simp [wildCardToRegexp.loop, joinRest, ih]

theorem wildCardToRegexp_loop_zero (piece : List Char) (pieces : List (List Char)) :
    wildCardToRegexp.loop (piece :: pieces) 0 [] = regexpQuoteMeta piece ++ joinRest pieces := by
  simp [wildCardToRegexp.loop, wildCardToRegexp_loop_succ]

theorem join_splitAll (p piece : List Char) (pieces : List (List Char))
    (h : splitAll '*' p = piece :: pieces) :
    regexpQuoteMeta piece ++ joinRest pieces = globToRegexp p := by
  induction p generalizing piece pieces with
  | nil =>
    simp only [splitAll, List.cons.injEq] at h
    obtain ⟨rfl, rfl⟩ := h
    rfl
  | cons c p ih =>
    by_cases hc : c = '*'
    · subst hc
      simp only [splitAll, if_true, List.cons.injEq] at h
      obtain ⟨rfl, rfl⟩ := h
      cases hsp : splitAll '*' p with
      | nil => exact absurd hsp (splitAll_ne_nil _ _)
      | cons piece' pieces' =>
        simp only [regexpQuoteMeta, joinRest, globToRegexp, if_true, List.nil_append,
          ih piece' pieces' hsp]
    · cases hsp : splitAll '*' p with
      | nil => exact absurd hsp (splitAll_ne_nil _ _)
      | cons piece' pieces' =>
        simp only [splitAll, hc, if_false, hsp, List.cons.injEq] at h
        obtain ⟨rfl, rfl⟩ := h
        have := ih piece' pieces' hsp
        simp only [regexpQuoteMeta, globToRegexp, hc, if_false]
        split <;> simp [this]

/-- The output of `wildCardToRegexp`, character by character of the pattern. -/
theorem wildCardToRegexp_eq (p : List Char) : wildCardToRegexp p = globToRegexp p := by
  rw [wildCardToRegexp, stringsSplit_eq_splitAll]
  cases hsp : splitAll '*' p with
  | nil => exact absurd hsp (splitAll_ne_nil _ _)
  | cons piece pieces => rw [wildCardToRegexp_loop_zero, join_splitAll p piece pieces hsp]

theorem regexpSpecial_facts (c : Char) (h : regexpSpecial c = false) :
    c ≠ backslash ∧ c ≠ '.' ∧ c ≠ '*' := by
  simp only [regexpSpecial, Bool.or_eq_false_iff, decide_eq_false_iff_not] at h
  exact ⟨h.1.1.1.1.1.1.1.1.1.1.1.1.1, h.1.1.1.1.1.1.1.1.1.1.1.1.2, h.1.1.1.1.1.1.1.1.1.1.2⟩

/-- The regular expression of a glob pattern always compiles, to one item per character of the
pattern. -/
theorem regexpParse_globToRegexp (p : List Char) :
    regexpParse (globToRegexp p) = some (p.map globItem) := by
  induction p with
  | nil => rfl
  | cons c p ih =>
    by_cases hc : c = '*'
    · subst hc
      have h1 : ('.' : Char) ≠ backslash := by decide
      simp [globToRegexp, regexpParse, h1, ih, globItem]
    · by_cases hs : regexpSpecial c = true
      · simp [globToRegexp, regexpParse, hc, hs, ih, globItem]
      · have hs : regexpSpecial c = false := by simpa using hs
        obtain ⟨h1, h2, -⟩ := regexpSpecial_facts c hs
        simp only [globToRegexp, hc, hs, if_false, List.map_cons, globItem]
        rw [regexpParse.eq_def]
        simp [hs, h1, h2, ih]

theorem regexpMatchStar_iff (k : List Char → Bool) (t : List Char) :
    regexpMatchStar k t = true ↔
      ∃ u v, t = u ++ v ∧ (∀ x ∈ u, x ≠ newline) ∧ k v = true := by
  induction t with
  | nil =>
    simp only [regexpMatchStar]
    constructor
    · intro h
      exact ⟨[], [], rfl, by simp, h⟩
    · rintro ⟨u, v, huv, -, hk⟩
      have : v = [] := (List.append_eq_nil.1 huv.symm).2
      rwa [this] at hk
  | cons x xs ih =>
    simp only [regexpMatchStar, Bool.or_eq_true, Bool.and_eq_true, ih, decide_eq_true_eq]
    constructor
    · rintro (h | ⟨hx, u, v, huv, hu, hk⟩)
      · exact ⟨[], x :: xs, rfl, by simp, h⟩
      · refine ⟨x :: u, v, by simp [huv], ?_, hk⟩
        intro y hy
        rcases List.mem_cons.1 hy with rfl | hy
        · exact hx
        · exact hu y hy
    · rintro ⟨u, v, huv, hu, hk⟩
      cases u with
      | nil =>
        simp only [List.nil_append] at huv
        left
        rwa [huv]
      | cons y u =>
        simp only [List.cons_append, List.cons.injEq] at huv
        obtain ⟨rfl, rfl⟩ := huv
        right
        exact ⟨hu x (by simp), u, v, rfl, fun z hz => hu z (by simp [hz]), hk⟩

theorem globMatches_nil_iff (any : Char → Prop) (s : List Char) :
    GlobMatches any [] s ↔ s = [] := by
  constructor
  · intro h
    cases h
    rfl
  · rintro rfl
    exact GlobMatches.nil

theorem globMatches_star_iff (any : Char → Prop) (p s : List Char) :
    GlobMatches any ('*' :: p) s ↔
      ∃ u v, s = u ++ v ∧ (∀ x ∈ u, any x) ∧ GlobMatches any p v := by
  constructor
  · intro h
    cases h with
    | lit _ _ s hc _ => exact absurd rfl hc
    | star u _ v hu hv => exact ⟨u, v, rfl, hu, hv⟩
  · rintro ⟨u, v, rfl, hu, hv⟩
    exact GlobMatches.star u p v hu hv

theorem globMatches_lit_iff (any : Char → Prop) (c : Char) (hc : c ≠ '*') (p s : List Char) :
    GlobMatches any (c :: p) s ↔ ∃ s', s = c :: s' ∧ GlobMatches any p s' := by
  constructor
  · intro h
    cases h with
    | lit _ _ s' _ h' => exact ⟨s', rfl, h'⟩
    | star u _ v hu hv => exact absurd rfl hc
  · rintro ⟨s', rfl, h'⟩
    exact GlobMatches.lit c p s' hc h'

/-- The items of a glob pattern match a prefix of `t` exactly when the pattern, its `*` confined
to one line, matches the whole of a prefix of `t`. -/
theorem regexpMatchHere_iff (p t : List Char) :
    regexpMatchHere (p.map globItem) t = true ↔
      ∃ mid post, t = mid ++ post ∧ GlobMatches (fun c => c ≠ newline) p mid := by
  induction p generalizing t with
  | nil =>
    simp only [List.map_nil, regexpMatchHere, true_iff]
    exact ⟨[], t, rfl, GlobMatches.nil⟩
  | cons c p ih =>
    by_cases hc : c = '*'
    · subst hc
      simp only [List.map_cons, globItem, if_true, regexpMatchHere, regexpMatchStar_iff]
      constructor
      · rintro ⟨u, v, rfl, hu, hk⟩
        obtain ⟨mid, post, rfl, hm⟩ := (ih v).1 hk
        exact ⟨u ++ mid, post, by simp, GlobMatches.star u p mid hu hm⟩
      · rintro ⟨mid, post, rfl, hm⟩
        obtain ⟨u, v, rfl, hu, hv⟩ := (globMatches_star_iff _ p mid).1 hm
        exact ⟨u, v ++ post, by simp, hu, (ih (v ++ post)).2 ⟨v, post, rfl, hv⟩⟩
    · simp only [List.map_cons, globItem, hc, if_false, regexpMatchHere]
      cases t with
      | nil =>
        simp only [Bool.false_eq_true, false_iff]
        rintro ⟨mid, post, hmp, hm⟩
        obtain ⟨s', rfl, -⟩ := (globMatches_lit_iff _ c hc p mid).1 hm
        simp at hmp
      | cons x xs =>
        simp only [Bool.and_eq_true, decide_eq_true_eq, ih]
        constructor
        · rintro ⟨rfl, mid, post, rfl, hm⟩
          exact ⟨x :: mid, post, rfl, GlobMatches.lit x p mid hc hm⟩
        · rintro ⟨mid, post, hmp, hm⟩
          obtain ⟨s', rfl, hs'⟩ := (globMatches_lit_iff _ c hc p mid).1 hm
          simp only [List.cons_append, List.cons.injEq] at hmp
          exact ⟨hmp.1, s', post, hmp.2, hs'⟩

theorem regexpMatchString_iff (re : List RegexpItem) (s : List Char) :
    regexpMatchString re s = true ↔ ∃ pre t, s = pre ++ t ∧ regexpMatchHere re t = true := by
  induction s with
  | nil =>
    simp only [regexpMatchString]
    constructor
    · intro h
      exact ⟨[], [], rfl, h⟩
    · rintro ⟨pre, t, hpt, h⟩
      have : t = [] := (List.append_eq_nil.1 hpt.symm).2
      rwa [this] at h
  | cons x xs ih =>
    simp only [regexpMatchString, Bool.or_eq_true, ih]
    constructor
    · rintro (h | ⟨pre, t, rfl, h⟩)
      · exact ⟨[], x :: xs, rfl, h⟩
      · exact ⟨x :: pre, t, rfl, h⟩
    · rintro ⟨pre, t, hpt, h⟩
      cases pre with
      | nil =>
        simp only [List.nil_append] at hpt
        left
        rwa [hpt]
      | cons y pre =>
        simp only [List.cons_append, List.cons.injEq] at hpt
        right
        exact ⟨pre, t, hpt.2, h⟩

/-- C9, as amended. The regular expression `wildCardToRegexp(p)` always compiles, and
`MatchString` accepts a file name `s` if and only if some contiguous part of `s` matches `p` as a
whole, each `*` standing for a possibly empty sequence of characters other than the line feed
and every other character of `p` standing for itself: the match is not anchored to the ends of
`s`. -/
theorem wildcard_matches_substring (p s : List Char) :
    ∃ re, regexpParse (wildCardToRegexp p) = some re ∧
      (regexpMatchString re s = regexpMatchStringOf (wildCardToRegexp p) s) ∧
      (regexpMatchString re s = true ↔
        ∃ pre mid post, s = pre ++ mid ++ post ∧
          GlobMatches (fun c => c ≠ newline) p mid) := by
  have hparse : regexpParse (wildCardToRegexp p) = some (p.map globItem) := by
    rw [wildCardToRegexp_eq, regexpParse_globToRegexp]
  refine ⟨p.map globItem, hparse, by simp [regexpMatchStringOf, hparse], ?_⟩
  rw [regexpMatchString_iff]
  constructor
  · rintro ⟨pre, t, rfl, h⟩
    obtain ⟨mid, post, rfl, hm⟩ := (regexpMatchHere_iff p t).1 h
    exact ⟨pre, mid, post, by simp, hm⟩
  · rintro ⟨pre, mid, post, rfl, hm⟩
    exact ⟨pre, mid ++ post, by simp, (regexpMatchHere_iff p (mid ++ post)).2 ⟨mid, post, rfl, hm⟩⟩

/-- C9, counterexample. The regular expression of the pattern `app.json` accepts the file name
`app.json.bak`, which the pattern does not match as a whole; and the regular expression of `a*b`
rejects the name made of `a`, a line feed and `b`, which the pattern matches with `*` standing
for the line feed. -/
theorem wildcard_not_anchored :
    (regexpMatchStringOf (wildCardToRegexp "app.json".toList) "app.json.bak".toList = true ∧
      ¬ GlobMatches (fun _ => True) "app.json".toList "app.json.bak".toList) ∧
    (regexpMatchStringOf (wildCardToRegexp "a*b".toList) ['a', newline, 'b'] = false ∧
      GlobMatches (fun _ => True) "a*b".toList ['a', newline, 'b']) := by
  refine ⟨⟨by decide, ?_⟩, by decide, ?_⟩
  · intro h
    have e1 : "app.json".toList = ['a', 'p', 'p', '.', 'j', 's', 'o', 'n'] := by decide
    have e2 : "app.json.bak".toList
        = ['a', 'p', 'p', '.', 'j', 's', 'o', 'n', '.', 'b', 'a', 'k'] := by decide
    rw [e1, e2] at h
    obtain ⟨_, h1, h⟩ := (globMatches_lit_iff _ 'a' (by decide) _ _).1 h
    cases h1
    obtain ⟨_, h1, h⟩ := (globMatches_lit_iff _ 'p' (by decide) _ _).1 h
    cases h1
    obtain ⟨_, h1, h⟩ := (globMatches_lit_iff _ 'p' (by decide) _ _).1 h
    cases h1
    obtain ⟨_, h1, h⟩ := (globMatches_lit_iff _ '.' (by decide) _ _).1 h
    cases h1
    obtain ⟨_, h1, h⟩ := (globMatches_lit_iff _ 'j' (by decide) _ _).1 h
    cases h1
    obtain ⟨_, h1, h⟩ := (globMatches_lit_iff _ 's' (by decide) _ _).1 h
    cases h1
    obtain ⟨_, h1, h⟩ := (globMatches_lit_iff _ 'o' (by decide) _ _).1 h
    cases h1
    obtain ⟨_, h1, h⟩ := (globMatches_lit_iff _ 'n' (by decide) _ _).1 h
    cases h1
    have := (globMatches_nil_iff _ _).1 h
    cases this
  · have e1 : "a*b".toList = ['a', '*', 'b'] := by decide
    rw [e1]
    exact GlobMatches.lit 'a' _ _ (by decide)
      (GlobMatches.star [newline] ['b'] ['b'] (fun _ _ => trivial)
        (GlobMatches.lit 'b' [] [] (by decide) GlobMatches.nil))


/-! ### Keys without a collision -/

theorem takeWhile_append_sep (sep : Char) (a b : List Char) (h : sep ∉ a) :
    (a ++ sep :: b).takeWhile (fun c => c ≠ sep) = a ∧
    ((a ++ sep :: b).dropWhile (fun c => c ≠ sep)).drop 1 = b := by
  induction a with
  | nil => simp
  | cons x a ih =>
    have hx : x ≠ sep := fun e => h (by simp [e])
    have ha : sep ∉ a := fun e => h (by simp [e])
    obtain ⟨h1, h2⟩ := ih ha
    refine ⟨?_, ?_⟩
    · simp only [List.cons_append, List.takeWhile_cons, hx, ne_eq, not_false_eq_true,
        decide_True, if_true]
      exact congrArg (x :: ·) h1
    · simp only [List.cons_append, List.dropWhile_cons, hx, ne_eq, not_false_eq_true,
        decide_True, if_true]
      exact h2

theorem stringsSplitN_cut (sep : Char) (n : Nat) (a b : List Char) (h : sep ∉ a) :
    stringsSplitN sep (n + 2) (a ++ sep :: b) = a :: stringsSplitN sep (n + 1) b := by
  obtain ⟨h1, h2⟩ := takeWhile_append_sep sep a b h
  rw [stringsSplitN, if_pos (by simp), h1, h2]

theorem stringsSplitN_no_sep (sep : Char) (n : Nat) (s : List Char) (h : sep ∉ s) :
    stringsSplitN sep (n + 1) s = [s] := by
  cases n with
  | zero => rfl
  | succ n => rw [stringsSplitN, if_neg h]

theorem stringsTrimPrefix_slash (s : List Char) (hne : s ≠ []) (h : '/' ∉ s) :
    stringsTrimPrefix s ['/'] = s := by
  cases s with
  | nil => exact absurd rfl hne
  | cons x s =>
    have hx : x ≠ '/' := fun e => h (by simp [e])
    have hx' : ¬ ('/' = x) := fun e => hx e.symm
    simp [stringsTrimPrefix, List.isPrefixOf, hx']

theorem not_mem_stringsTrimPrefix (c : Char) (s pre : List Char) (h : c ∉ s) :
    c ∉ stringsTrimPrefix s pre := by
  unfold stringsTrimPrefix
  split
  · exact fun hm => h (List.mem_of_mem_drop hm)
  · exact h

theorem filepathBase_segment (n : List Char) (hne : n ≠ []) (h : '/' ∉ n) :
    filepathBase n = n := by
  have hrev : '/' ∉ n.reverse := by simpa using h
  have h1 : n.reverse.dropWhile (fun c => c = '/') = n.reverse := by
    cases hr : n.reverse with
    | nil => rfl
    | cons x xs =>
      have hx : x ≠ '/' := by
        intro e
        apply hrev
        rw [hr]
        simp [e]
      simp [List.dropWhile_cons, hx]
  have h2 : n.reverse.takeWhile (fun c => c ≠ '/') = n.reverse := by
    rw [List.takeWhile_eq_self_iff]
    intro x hx
    have : x ≠ '/' := fun e => hrev (e ▸ hx)
    simpa using this
  simp only [filepathBase, hne, if_false, h1, List.reverse_reverse, h2]

/-- The two clauses of the key parsing that hold, and the first clause for the keys whose
group-and-file part does not begin with the namespace. -/
theorem parseKey_segments (n g f : List Char) (hn : n ≠ []) (hn' : '/' ∉ n) :
    (g ≠ [] → '/' ∉ g → ¬ n.isPrefixOf (g ++ '/' :: f) = true →
      parseKey [] ('/' :: (n ++ '/' :: (g ++ '/' :: f))) = some (n, g, f)) ∧
    ('/' ∉ f → ∃ f', parseKey [] ('/' :: (n ++ '/' :: f)) = some (n, "default".toList, f')) := by
  have hbase := filepathBase_segment n hn hn'
  have htrim := stringsTrimPrefix_slash n hn hn'
  have harr : ∀ rest : List Char,
      stringsSplitN '/' 3 ('/' :: (n ++ '/' :: rest)) = [[], n, rest] := by
    intro rest
    have e1 := stringsSplitN_cut '/' 1 [] (n ++ '/' :: rest) (by simp)
    have e2 := stringsSplitN_cut '/' 0 n rest hn'
    simp only [List.nil_append] at e1
    rw [e1, e2]
    rfl
  refine ⟨?_, ?_⟩
  · intro hg hg' hcol
    have hcol' : n.isPrefixOf (g ++ '/' :: f) = false := Bool.eq_false_iff.2 hcol
    have ht1 : stringsTrimPrefix (g ++ '/' :: f) n = g ++ '/' :: f := by
      simp [stringsTrimPrefix, hcol']
    have ht2 : stringsTrimPrefix (g ++ '/' :: f) ['/'] = g ++ '/' :: f := by
      cases g with
      | nil => exact absurd rfl hg
      | cons x g =>
        have hx : x ≠ '/' := fun e => hg' (by simp [e])
        have hx' : ¬ ('/' = x) := fun e => hx e.symm
        simp [stringsTrimPrefix, List.isPrefixOf, hx']
    have hpath : stringsSplitN '/' 2 (g ++ '/' :: f) = [g, f] := by
      rw [stringsSplitN_cut '/' 0 g f hg']
      rfl
    simp only [parseKey, if_true, harr, List.getElem?_cons_succ, List.getElem?_cons_zero,
      ht1, ht2, hpath, hbase, htrim, hn, hg, if_false]
  · intro hf
    have hno : '/' ∉ stringsTrimPrefix (stringsTrimPrefix f n) ['/'] :=
      not_mem_stringsTrimPrefix _ _ _ (not_mem_stringsTrimPrefix _ _ _ hf)
    have hpath := stringsSplitN_no_sep '/' 1 _ hno
    refine ⟨stringsTrimPrefix (stringsTrimPrefix f n) ['/'], ?_⟩
    simp only [parseKey, if_true, harr, List.getElem?_cons_succ, List.getElem?_cons_zero,
      hpath, hbase, htrim, hn, if_false]
    simp

/-- A non-empty prefix that consists of path separators only gives the namespace `default`. -/
theorem parseKey_default_namespace (pre key : List Char) (hne : pre ≠ [])
    (hall : ∀ c ∈ pre, c = '/') :
    ∃ g f, parseKey pre key = some ("default".toList, g, f) := by
  have hdrop : pre.reverse.dropWhile (fun c => c = '/') = [] := by
    rw [List.dropWhile_eq_nil_iff]
    intro x hx
    simpa using hall x (List.mem_reverse.1 hx)
  have hbase : filepathBase pre = ['/'] := by
    simp [filepathBase, hne, hdrop]
  have htrim : stringsTrimPrefix ['/'] ['/'] = [] := by decide
  have hsplit : ∀ s : List Char,
      (∃ a, stringsSplitN '/' 2 s = [a]) ∨ (∃ a b, stringsSplitN '/' 2 s = [a, b]) := by
    intro s
    by_cases hs : '/' ∈ s
    · right
      exact ⟨_, _, by rw [stringsSplitN, if_pos hs]; rfl⟩
    · left
      exact ⟨s, by rw [stringsSplitN, if_neg hs]⟩
  rcases hsplit (stringsTrimPrefix (stringsTrimPrefix key pre) ['/']) with ⟨a, ha⟩ | ⟨a, b, hab⟩
  · refine ⟨"default".toList, a, ?_⟩
    simp only [parseKey, hne, if_false, ha, hbase, htrim, if_true]
    simp
  · by_cases hA : a = []
    · refine ⟨"default".toList, b, ?_⟩
      simp only [parseKey, hne, if_false, hab, hbase, htrim, if_true, hA]
    · refine ⟨a, b, ?_⟩
      simp only [parseKey, hne, if_false, hab, hbase, htrim, if_true, hA]

/-! ### The state update of one call and the invariant of the state -/

/-- C14, as amended. One call of `Next` on a non-empty node list selects a node `b`, returns its
host, and with `S` the sum of the effectiveWeight of all nodes before the call: the currentWeight
of node `b` becomes its old value plus its effectiveWeight minus `S`, that of every other node its
old value plus its effectiveWeight, both in the arithmetic of Go's `int`, that is reduced modulo
`2^64` into the range of `int`, hence equal to these integers whenever they lie in that range;
the effectiveWeight of every node rises by exactly 1 if it was below Weight and is unchanged
otherwise, so that it does not come to exceed Weight; host and Weight of every node, the number
and the order of the nodes, and the other fields of the balancer are unchanged. -/
theorem Next_state_update (r : WeightRoundRobinBalance) (hne : r.rss ≠ []) :
    ∃ (b : Nat) (nb : WeightNode), Next.best r = some b ∧ r.rss[b]? = some nb ∧
      r.Next.2 = Except.ok nb.host ∧
      r.Next.1.rss.length = r.rss.length ∧
      r.Next.1.curIndex = r.curIndex ∧ r.Next.1.rsw = r.rsw ∧
      ∀ (j : Nat) (n : WeightNode), r.rss[j]? = some n →
        ∃ n', r.Next.1.rss[j]? = some n' ∧
          n'.host = n.host ∧ n'.Weight = n.Weight ∧
          n'.effectiveWeight =
            (if n.effectiveWeight < n.Weight then n.effectiveWeight + 1
             else n.effectiveWeight) ∧
          (n.effectiveWeight ≤ n.Weight → n'.effectiveWeight ≤ n'.Weight) ∧
          n'.currentWeight =
            wrapInt (if j = b then
              n.currentWeight + n.effectiveWeight - (r.rss.map (fun x => x.effectiveWeight)).sum
             else n.currentWeight + n.effectiveWeight) ∧
          (InRange (if j = b then
              n.currentWeight + n.effectiveWeight - (r.rss.map (fun x => x.effectiveWeight)).sum
             else n.currentWeight + n.effectiveWeight) →
            n'.currentWeight =
              (if j = b then
                n.currentWeight + n.effectiveWeight - (r.rss.map (fun x => x.effectiveWeight)).sum
               else n.currentWeight + n.effectiveWeight)) := by
  cases hb : Next.best r with
  | none => exact absurd ((best_eq_none_iff r).1 hb) hne
  | some b =>
    obtain ⟨nb, hnb, -, -⟩ := best_some r b hb
    obtain ⟨fc, fw⟩ := Next_frame r
    refine ⟨b, nb, rfl, hnb, by rw [Next_of_best r b nb hb hnb], Next_rss_length r, fc, fw, ?_⟩
    intro j n hj
    have hget := Next_rss_getElem? r b hb j
    rw [hj] at hget
    simp only [Option.map_some'] at hget
    refine ⟨_, hget, ?_⟩
    by_cases hjb : j = b
    · subst hjb
      have hcw := selectedNode_currentWeight r n
      simp only [sumEffective] at hcw
      simp only [eq_self_iff_true, if_true]
      refine ⟨by simp [selectedNode], by simp [selectedNode], ?_, ?_, hcw, ?_⟩
      · simp [selectedNode, bump_effectiveWeight]
      · intro hle
        simp only [selectedNode, bump_effectiveWeight]
        split <;> omega
      · intro hr
        rw [hcw]
        exact wrapInt_of_inRange _ hr
    · simp only [hjb, if_false, bump_host, bump_Weight, bump_effectiveWeight,
        bump_currentWeight, true_and]
      refine ⟨?_, ?_⟩
      · intro hle
        split <;> omega
      · intro hr
        exact wrapInt_of_inRange _ hr

theorem Next_state_update_witness :
    healExample.rss ≠ [] ∧
    ∃ (b : Nat) (nb : WeightNode), Next.best healExample = some b ∧
      healExample.rss[b]? = some nb ∧
      healExample.Next.2 = Except.ok nb.host ∧
      healExample.Next.1.rss.length = healExample.rss.length ∧
      healExample.Next.1.curIndex = healExample.curIndex ∧
      healExample.Next.1.rsw = healExample.rsw ∧
      ∀ (j : Nat) (n : WeightNode), healExample.rss[j]? = some n →
        ∃ n', healExample.Next.1.rss[j]? = some n' ∧
          n'.host = n.host ∧ n'.Weight = n.Weight ∧
          n'.effectiveWeight =
            (if n.effectiveWeight < n.Weight then n.effectiveWeight + 1
             else n.effectiveWeight) ∧
          (n.effectiveWeight ≤ n.Weight → n'.effectiveWeight ≤ n'.Weight) ∧
          n'.currentWeight =
            wrapInt (if j = b then
              n.currentWeight + n.effectiveWeight
                - (healExample.rss.map (fun x => x.effectiveWeight)).sum
             else n.currentWeight + n.effectiveWeight) ∧
          (InRange (if j = b then
              n.currentWeight + n.effectiveWeight
                - (healExample.rss.map (fun x => x.effectiveWeight)).sum
             else n.currentWeight + n.effectiveWeight) →
            n'.currentWeight =
              (if j = b then
                n.currentWeight + n.effectiveWeight
                  - (healExample.rss.map (fun x => x.effectiveWeight)).sum
               else n.currentWeight + n.effectiveWeight)) :=
  ⟨by decide, Next_state_update healExample (by decide)⟩

/-- C14, counterexample. Three nodes of weight and effectiveWeight `2^62` with the currentWeights
`-2^63, 2^62, 2^62` (the state one call of `Next` leaves on three hosts of weight `2^62`): the
effectiveWeights sum to `3 * 2^62`, but Go's `total` wraps to `-2^62`; `Next` selects node 0 and
leaves the currentWeights `0, -2^63, -2^63`, where the integers of the claim are
`-2^63 + 2^62 - 3 * 2^62 = -2^64` for the selected node and `2^62 + 2^62 = 2^63` for the two
others. -/
theorem Next_state_update_wraps :
    wrapExample.rss ≠ [] ∧
    Next.best wrapExample = some 0 ∧
    (wrapExample.rss.map (fun x => x.effectiveWeight)).sum = 13835058055282163712 ∧
    wrapExample.totalWeight = -4611686018427387904 ∧
    wrapExample.Next.1.rss.map (fun x => x.currentWeight)
      = [0, -9223372036854775808, -9223372036854775808] ∧
    wrapExample.rss.map (fun x => x.currentWeight + x.effectiveWeight)
      = [-4611686018427387904, 9223372036854775808, 9223372036854775808] ∧
    wrapExample.rss.map (fun x => x.currentWeight + x.effectiveWeight
        - (wrapExample.rss.map (fun y => y.effectiveWeight)).sum)
      = [-18446744073709551616, -4611686018427387904, -4611686018427387904] := by
  decide

/-- Whatever the weights, the currentWeights of a balancer built by `Add` sum to a multiple of
`2^64` after every number of calls of `Next`. -/
theorem nextN_sumCurrent_emod (r : WeightRoundRobinBalance) (m : Nat) :
    (nextN m r).sumCurrent % 18446744073709551616 = r.sumCurrent % 18446744073709551616 := by
  induction m with
  | zero => rfl
  | succ m ih => rw [nextN, Next_sumCurrent_emod, ih]

/-- C15, as amended. On a balancer built only with `Add`, after every number of calls of `Next`
the currentWeights sum to a multiple of `2^64`; and when no host was added with a negative weight
and `n * W` is below `2^63`, for `n` hosts of total weight `W`, so that no sum `Next` forms leaves
the range of Go's `int`, the currentWeights sum to 0 and every currentWeight is strictly greater
than minus the sum of the effectiveWeights whenever that sum is positive. -/
theorem Next_invariant (hosts : List WeightHost) (m : Nat) :
    (nextN m (build hosts)).sumCurrent % 18446744073709551616 = 0 ∧
    ((∀ h ∈ hosts, 0 ≤ h.weight) →
      (hosts.length : Int) * sumWeights hosts < 9223372036854775808 →
      (nextN m (build hosts)).sumCurrent = 0 ∧
      (0 < (nextN m (build hosts)).sumEffective →
        ∀ n ∈ (nextN m (build hosts)).rss,
          -(nextN m (build hosts)).sumEffective < n.currentWeight)) := by
  refine ⟨by rw [nextN_sumCurrent_emod, sumCurrent_build]; rfl, ?_⟩
  intro hnn hB
  obtain ⟨-, -, hs, hpt, hlow⟩ := run_invariant hosts hnn hB m
  have hS := sumEffective_of_pointwise (nextN m (build hosts)) hosts _
    (fun j h => by simp [runNode]) hpt
  refine ⟨hs, ?_⟩
  rw [hS]
  intro hW n hn
  obtain ⟨j, hj⟩ := List.getElem?_of_mem hn
  exact hlow hW j n hj

theorem Next_invariant_witness :
    (∀ h ∈ [(⟨exHost 1, 2⟩ : WeightHost), ⟨exHost 2, 0⟩, ⟨exHost 3, 1⟩], 0 ≤ h.weight) ∧
    (([(⟨exHost 1, 2⟩ : WeightHost), ⟨exHost 2, 0⟩, ⟨exHost 3, 1⟩].length : Int)
      * sumWeights [⟨exHost 1, 2⟩, ⟨exHost 2, 0⟩, ⟨exHost 3, 1⟩] < 9223372036854775808) ∧
    0 < (nextN 3 (build [⟨exHost 1, 2⟩, ⟨exHost 2, 0⟩, ⟨exHost 3, 1⟩])).sumEffective ∧
    (nextN 3 (build [⟨exHost 1, 2⟩, ⟨exHost 2, 0⟩, ⟨exHost 3, 1⟩])).sumCurrent = 0 ∧
    ∀ n ∈ (nextN 3 (build [⟨exHost 1, 2⟩, ⟨exHost 2, 0⟩, ⟨exHost 3, 1⟩])).rss,
      -(nextN 3 (build [⟨exHost 1, 2⟩, ⟨exHost 2, 0⟩, ⟨exHost 3, 1⟩])).sumEffective
        < n.currentWeight :=
  ⟨by decide, by decide, by decide,
    ((Next_invariant [⟨exHost 1, 2⟩, ⟨exHost 2, 0⟩, ⟨exHost 3, 1⟩] 3).2
      (by decide) (by decide)).1,
    ((Next_invariant [⟨exHost 1, 2⟩, ⟨exHost 2, 0⟩, ⟨exHost 3, 1⟩] 3).2
      (by decide) (by decide)).2 (by decide)⟩

/-- C15, counterexample. Built with `Add` from the weights 3 and -1, the balancer has after two
calls of `Next` the currentWeights 2 and -2 and the effectiveWeights 3 and -1: their sum 2 is
positive, and the currentWeight -2 of the second node is not greater than -2. Built with `Add`
from three hosts of weight `2^62`, it has after two calls of `Next` the currentWeights
`0, -2^63, -2^63`, whose sum is `-2^64` and not 0. -/
theorem Next_invariant_counterexample :
    (nextN 2 (build [⟨exHost 1, 3⟩, ⟨exHost 2, -1⟩])).rss
      = [⟨exHost 1, 3, 2, 3⟩, ⟨exHost 2, -1, -2, -1⟩] ∧
    (nextN 2 (build [⟨exHost 1, 3⟩, ⟨exHost 2, -1⟩])).sumEffective = 2 ∧
    ¬ (0 < (nextN 2 (build [⟨exHost 1, 3⟩, ⟨exHost 2, -1⟩])).sumEffective →
      ∀ n ∈ (nextN 2 (build [⟨exHost 1, 3⟩, ⟨exHost 2, -1⟩])).rss,
        -(nextN 2 (build [⟨exHost 1, 3⟩, ⟨exHost 2, -1⟩])).sumEffective < n.currentWeight) ∧
    (∀ h ∈ bigHosts, 0 < h.weight) ∧
    (nextN 2 (build bigHosts)).rss.map (fun x => x.currentWeight)
      = [0, -9223372036854775808, -9223372036854775808] ∧
    (nextN 2 (build bigHosts)).sumCurrent = -18446744073709551616 ∧
    (nextN 2 (build bigHosts)).sumCurrent ≠ 0 := by
  decide

/-! ### PKCS#7 padding -/

/-- C16. PKCS#7 round trip: for every byte string `data` and block size `b` with
`1 ≤ b ≤ 255`, `pkcs7Padding(data, b)` returns without panic a string whose length is a positive
multiple of `b` and greater than `len(data)`, and `pkcs7UnPadding` of it returns `data` and no
error. -/
theorem pkcs7_round_trip (data : List Nat) (b : Int) (h1 : 1 ≤ b) (h2 : b ≤ 255) :
    ∃ padded, pkcs7Padding data b = some padded ∧
      (padded.length : Int) % b = 0 ∧ 0 < padded.length ∧ data.length < padded.length ∧
      pkcs7UnPadding padded = some (.ok data) := by
  have hb0 : b ≠ 0 := by omega
  have htm : Int.tmod (data.length : Int) b = (data.length : Int) % b :=
    Int.tmod_eq_emod (by omega) (by omega)
  have hr0 : 0 ≤ (data.length : Int) % b := Int.emod_nonneg _ hb0
  have hrb : (data.length : Int) % b < b := Int.emod_lt_of_pos _ (by omega)
  obtain ⟨p, hp⟩ : ∃ p : Nat, (p : Int) = b - (data.length : Int) % b :=
    ⟨(b - (data.length : Int) % b).toNat, Int.toNat_of_nonneg (by omega)⟩
  have hp1 : 1 ≤ p := by omega
  have hp255 : p ≤ 255 := by omega
  have hpad : pkcs7Padding data b = some (data ++ List.replicate p p) := by
    simp only [pkcs7Padding, hb0, if_false, htm, ← hp, toByte]
    have h256 : ((p : Int) % 256).toNat = p := by omega
    simp [h256]
  refine ⟨_, hpad, ?_, ?_, ?_, ?_⟩
  · simp only [List.length_append, List.length_replicate]
    push_cast
    rw [hp]
    have := Int.emod_add_ediv (data.length : Int) b
    have e : (data.length : Int) + (b - (data.length : Int) % b)
        = b * ((data.length : Int) / b + 1) := by linarith
    rw [e]
    exact Int.mul_emod_right _ _
  · simp; omega
  · simp; omega
  · have hlen : (data ++ List.replicate p p).length = data.length + p := by simp
    have hlast : (data ++ List.replicate p p)[data.length + p - 1]? = some p := by
      rw [List.getElem?_append_right (by omega), List.getElem?_replicate]
      simp; omega
    simp only [pkcs7UnPadding, hlen, hlast]
    have hne : ¬ (data.length + p = 0) := by omega
    simp [hne]

theorem pkcs7_round_trip_witness :
    (1 : Int) ≤ 4 ∧ (4 : Int) ≤ 255 ∧
    ∃ padded, pkcs7Padding [1, 2, 3, 4, 5] 4 = some padded ∧
      (padded.length : Int) % 4 = 0 ∧ 0 < padded.length ∧
      [1, 2, 3, 4, 5].length < padded.length ∧
      pkcs7UnPadding padded = some (.ok [1, 2, 3, 4, 5]) :=
  ⟨by decide, by decide, pkcs7_round_trip [1, 2, 3, 4, 5] 4 (by decide) (by decide)⟩

/-! ### The watch engine -/

theorem createWatch_loop_revision (pattern : List RegexpItem) (infos : List (List Char))
    (w : Watch) (started : List (List Char)) :
    (Confd.createWatch.loop pattern infos w started).1.revision = w.revision := by
  induction infos generalizing w started with
  | nil => rfl
  | cons configFile rest ih =>
    simp only [Confd.createWatch.loop]
    split
    · split
      · rw [ih]
      · rw [ih]
    · rw [ih]

/-- A watch made by `createWatch` starts at revision 0. -/
theorem createWatch_revision (listing : Except String (List (List Char)))
    (nspace group fileName : List Char) (w : Watch) (started : List (List Char))
    (h : Confd.createWatch listing nspace group fileName = Except.ok (w, started)) :
    w.revision = 0 := by
  simp only [Confd.createWatch] at h
  split at h
  · cases h
    rfl
  · split at h
    · cases h
    · split at h
      · cases h
      · simp only [Except.ok.injEq] at h
        have h1 := congrArg (fun p => p.1.revision) h
        simp only [createWatch_loop_revision] at h1
        exact h1.symm

theorem ofWatch_wellFormed (w : Watch) : (WatchCell.ofWatch w).WellFormed := by
  simp [WatchCell.WellFormed, WatchCell.ofWatch]

/-- What `update` does: the revision becomes `newRevision`, whatever it was; the old channel is
closed; the new channel is one that did not exist, and is open. -/
theorem update_spec (w : WatchCell) (newRevision : Int) (hw : w.WellFormed) :
    (Watch.update w newRevision).watch.revision = newRevision ∧
    w.cond ∈ (Watch.update w newRevision).closed ∧
    (Watch.update w newRevision).cond ≠ w.cond ∧
    (Watch.update w newRevision).cond ∉ w.closed ∧
    (Watch.update w newRevision).WellFormed := by
  obtain ⟨h1, h2, h3⟩ := hw
  refine ⟨rfl, by simp [Watch.update], ?_, ?_, ?_⟩
  · simp only [Watch.update]
    omega
  · intro hmem
    have := h3 _ hmem
    simp only [Watch.update] at this
    omega
  · refine ⟨by simp [Watch.update], ?_, ?_⟩
    · simp only [Watch.update, List.mem_cons, not_or]
      refine ⟨by omega, ?_⟩
      intro hmem
      have := h3 _ hmem
      omega
    · intro c hc
      simp only [Watch.update, List.mem_cons] at hc ⊢
      rcases hc with rfl | hc
      · omega
      · have := h3 _ hc
        omega

/-- A call `w.update(w.revision + 1)` that no other goroutine interrupts moves the revision
from `R` to `R + 1`; so does every event that `watchFile` handles, unless it is `NotChanged`,
and a tick of the re-scan moves it by 1 or leaves it. -/
theorem bump_uninterrupted (w : WatchCell) (fileName : List Char) (changeType : ChangeType)
    (pattern : List RegexpItem) (infos : List (List Char)) :
    (Watch.update w (w.watch.revision + 1)).watch.revision = w.watch.revision + 1 ∧
    (watchFile.onEvent fileName w changeType).1.watch.revision =
      (if changeType = ChangeType.NotChanged then w.watch.revision
       else w.watch.revision + 1) ∧
    ((Watch.WaitNext.rescan pattern infos w).1.watch.revision = w.watch.revision ∨
      (Watch.WaitNext.rescan pattern infos w).1.watch.revision = w.watch.revision + 1) := by
  refine ⟨rfl, ?_, ?_⟩
  · cases changeType <;> simp [watchFile.onEvent, Watch.update]
  · have hloop : ∀ (l : List (List Char)) (c : WatchCell) (t s : List (List Char)),
        (Watch.WaitNext.rescan.loop pattern l c t s).1.watch.revision = c.watch.revision := by
      intro l
      induction l with
      | nil => intro c t s; rfl
      | cons x rest ih =>
        intro c t s
        simp only [Watch.WaitNext.rescan.loop]
        split
        · split
          · rw [ih]
          · rw [ih]
        · rw [ih]
    have h0 := hloop infos w [] []
    simp only [Watch.WaitNext.rescan]
    split
    · left; exact h0
    · split
      · right
        simp only [Watch.update]
        rw [h0]
      · left; exact h0

/-- With a single bumping goroutine, every step keeps the revision or, when it is the call of
`update`, moves it from `R` to `R + 1`. -/
theorem single_step (e : Engine) (g : Nat) (h : e.Single) :
    (e.step g).Single ∧
    ((e.step g).cell.watch.revision = e.cell.watch.revision ∨
      (e.step g).cell.watch.revision = e.cell.watch.revision + 1) ∧
    (e.cell.watch.revision ≤ (e.step g).cell.watch.revision) ∧
    (e.step g).cell.watch.wildcard = e.cell.watch.wildcard := by
  rcases h with h | h
  · cases g with
    | zero => simp [Engine.step, h, Engine.Single]
    | succ g => simp [Engine.step, h, Engine.Single]
  · cases g with
    | zero => simp [Engine.step, h, Engine.Single, Watch.update]
    | succ g => simp [Engine.step, h, Engine.Single]

/-- With a single bumping goroutine the revision never decreases along a schedule. -/
theorem single_run (e : Engine) (schedule : List Nat) (h : e.Single) :
    (e.run schedule).Single ∧ e.cell.watch.revision ≤ (e.run schedule).cell.watch.revision := by
  induction schedule generalizing e with
  | nil => exact ⟨h, le_refl _⟩
  | cons g rest ih =>
    obtain ⟨h1, -, h3, -⟩ := single_step e g h
    obtain ⟨h4, h5⟩ := ih (e.step g) h1
    exact ⟨h4, le_trans h3 h5⟩

/-- C11. Two goroutines bump one watch and the revision fails to increase. `createWatch` for
`*.json` in a group with `a.json` and `b.json` starts two `watchFile` goroutines on one watch at
revision 0. When both evaluate `w.revision + 1` before either calls `update`, the revisions
after the four steps are 0, 0, 1, 1: the second call of `update` leaves the revision at 1. And
when the first goroutine calls `update` only after the second has bumped twice, the revisions
are 0, 0, 1, 1, 2, 1: its call moves the revision from 2 down to 1. -/
theorem update_race :
    Confd.createWatch (.ok ["a.json".toList, "b.json".toList]) "default".toList "svc".toList
        "*.json".toList = .ok (jsonWatch, ["a.json".toList, "b.json".toList]) ∧
    jsonEngine.cell.watch.revision = 0 ∧
    jsonEngine.revisions [0, 1, 0, 1] = [0, 0, 1, 1] ∧
    jsonEngine.revisions [0, 1, 1, 1, 1, 0] = [0, 0, 1, 1, 2, 1] := by
  refine ⟨rfl, ?_, ?_, ?_⟩ <;> decide

/-- A call of `WaitNext` that finds the revision greater than `lastRevision` sends the current
revision on `notify` without waiting on `cond`. -/
theorem WaitNext_sends_at_once (s : WaitSystem) (hc : s.waiter = WaitPc.check)
    (hr : s.lastRevision < s.engine.cell.watch.revision) :
    s.wait.waiter = WaitPc.send ∧
    s.wait.wait.waiter = WaitPc.sent s.engine.cell.watch.revision := by
  have h1 : s.wait = { s with waiter := WaitPc.send } := by
    simp [WaitSystem.wait, hc, hr]
  rw [h1]
  exact ⟨rfl, rfl⟩

theorem fresh_step (s : WaitSystem) (a : WaitAction) (h : s.Fresh) : (s.step a).Fresh := by
  obtain ⟨h1, h2, h3, h4⟩ := h
  cases a with
  | bump g =>
    obtain ⟨k1, -, k3, k4⟩ := single_step s.engine g h1
    refine ⟨k1, by simpa [WaitSystem.step, k4] using h2, ?_, ?_⟩
    · intro hs
      exact lt_of_lt_of_le (h3 hs) k3
    · intro v hv
      exact h4 v hv
  | wait =>
    simp only [WaitSystem.step, WaitSystem.wait]
    cases hw : s.waiter with
    | check =>
      by_cases hr : s.engine.cell.watch.revision > s.lastRevision
      · simp only [hr, if_true]
        exact ⟨h1, h2, fun _ => hr, fun v hv => by cases hv⟩
      · have he : (if s.engine.cell.watch.wildcard = true then
            ({ s.engine with pcs := s.engine.pcs ++ [BumpPc.idle] } : Engine)
            else s.engine) = s.engine := by simp [h2]
        simp only [hr, if_false, he]
        exact ⟨h1, h2, (fun hs => by cases hs), (fun v hv => by cases hv)⟩
    | blocked c =>
      simp only
      split
      · exact ⟨h1, h2, (fun hs => by cases hs), (fun v hv => by cases hv)⟩
      · exact ⟨h1, h2, h3, h4⟩
    | send =>
      simp only
      refine ⟨h1, h2, (fun hs => by cases hs), ?_⟩
      intro v hv
      cases hv
      exact h3 hw
    | sent v => exact ⟨h1, h2, h3, h4⟩
    | cancelled => exact ⟨h1, h2, h3, h4⟩
  | cancel =>
    simp only [WaitSystem.step, WaitSystem.cancel]
    cases hw : s.waiter with
    | check => exact ⟨h1, h2, h3, h4⟩
    | blocked c => exact ⟨h1, h2, (fun hs => by cases hs), (fun v hv => by cases hv)⟩
    | send => exact ⟨h1, h2, (fun hs => by cases hs), (fun v hv => by cases hv)⟩
    | sent v => exact ⟨h1, h2, h3, h4⟩
    | cancelled => exact ⟨h1, h2, h3, h4⟩

/-- On a watch that is not a wildcard and that a single goroutine bumps, `WaitNext` never
reports a stale revision, whatever the interleaving. -/
theorem WaitNext_single_bumper (s : WaitSystem) (actions : List WaitAction)
    (he : s.engine.Single) (hw : s.engine.cell.watch.wildcard = false)
    (hc : s.waiter = WaitPc.check) (v : Int) (hv : (s.run actions).waiter = WaitPc.sent v) :
    s.lastRevision < v ∧ (s.run actions).lastRevision = s.lastRevision := by
  have hfresh : s.Fresh :=
    ⟨he, hw, (fun hs => by rw [hc] at hs; cases hs), (fun v hv => by rw [hc] at hv; cases hv)⟩
  have hlast : ∀ (t : WaitSystem) (a : WaitAction), (t.step a).lastRevision = t.lastRevision := by
    intro t a
    cases a with
    | bump g => rfl
    | wait =>
      simp only [WaitSystem.step, WaitSystem.wait]
      cases t.waiter with
      | check => simp only; split <;> rfl
      | blocked c => simp only; split <;> rfl
      | send => rfl
      | sent v => rfl
      | cancelled => rfl
    | cancel =>
      simp only [WaitSystem.step, WaitSystem.cancel]
      cases t.waiter <;> rfl
  have key : ∀ (l : List WaitAction) (t : WaitSystem), t.Fresh →
      (t.run l).Fresh ∧ (t.run l).lastRevision = t.lastRevision := by
    intro l
    induction l with
    | nil => intro t ht; exact ⟨ht, rfl⟩
    | cons a rest ih =>
      intro t ht
      obtain ⟨k1, k2⟩ := ih (t.step a) (fresh_step t a ht)
      exact ⟨k1, k2.trans (hlast t a)⟩
  obtain ⟨⟨-, -, -, k4⟩, k5⟩ := key actions s hfresh
  exact ⟨k5 ▸ k4 v hv, k5⟩

/-- C12. `WaitNext` reports a stale revision. On the watch of `jsonEngine`, the first
`watchFile` goroutine has evaluated `w.revision + 1` to 1 and the second has bumped twice, so
the revision is 2. `WaitNext` is called with `lastRevision` 1, finds 2 greater than 1 and leaves
the loop; the first goroutine now calls `update(1)`; `WaitNext` sends `w.revision`, which is 1
and not greater than `lastRevision`. -/
theorem WaitNext_sends_stale :
    (jsonEngine.run [0, 1, 1, 1, 1]).cell.watch.revision = 2 ∧
    (jsonEngine.run [0, 1, 1, 1, 1]).pcs = [BumpPc.evaluated 1, BumpPc.idle] ∧
    ((⟨jsonEngine.run [0, 1, 1, 1, 1], 1, WaitPc.check⟩ : WaitSystem).run
        [WaitAction.wait]).waiter = WaitPc.send ∧
    ((⟨jsonEngine.run [0, 1, 1, 1, 1], 1, WaitPc.check⟩ : WaitSystem).run
        [WaitAction.wait, WaitAction.bump 0, WaitAction.wait]).waiter = WaitPc.sent 1 := by
  decide

theorem aggregateRevision_eq (watches : List WatchCell) (w : WatchCell) (hw : w ∈ watches)
    (hmax : ∀ w' ∈ watches, w'.watch.revision ≤ w.watch.revision) :
    aggregateRevision watches = some w.watch.revision := by
  simp only [aggregateRevision]
  haveI : Std.Antisymm (fun (x1 x2 : Int) => x1 ≤ x2) := ⟨fun h1 h2 => le_antisymm h1 h2⟩
  rw [List.max?_eq_some_iff (fun a => le_refl a) (fun a b => max_choice a b)
    (fun a b c => max_le_iff)]
  refine ⟨List.mem_map_of_mem (fun w => w.watch.revision) hw, ?_⟩
  intro b hb
  simp only [List.mem_map] at hb
  obtain ⟨w', hw', rfl⟩ := hb
  exact hmax w' hw'

/-! ### The goroutines of `WatchPrefix` -/

theorem prefix_run_snoc (s : PrefixSystem) (l : List PrefixAction) (a : PrefixAction) :
    s.run (l ++ [a]) = (s.run l).step a := by
  simp [PrefixSystem.run, List.foldl_append]

/-- A step gives a watch no other offer than the one it had, or the revision it has while its
`WaitNext` is past the loop. -/
theorem step_offer (s : PrefixSystem) (a : PrefixAction) (j : Nat) (q : PrefixWatch) (x : Int)
    (hq : (s.step a).watches[j]? = some q) (hx : q.offer = some x) :
    ∃ p, s.watches[j]? = some p ∧
      (p.offer = some x ∨
        (p.sys.waiter = WaitPc.send ∧ x = p.sys.engine.cell.watch.revision)) := by
  have hset : ∀ (i : Nat) (p p' : PrefixWatch), s.watches[i]? = some p →
      (s.watches.set i p')[j]? = some q →
      (j = i ∧ q = p') ∨ (s.watches[j]? = some q) := by
    intro i p p' hp h
    rw [List.getElem?_set] at h
    split at h
    · split at h
      · left
        exact ⟨by omega, by simpa using h.symm⟩
      · cases h
    · right
      exact h
  cases a with
  | bump i g =>
    simp only [PrefixSystem.step] at hq
    split at hq
    · exact ⟨q, hq, Or.inl hx⟩
    · rename_i p hp
      rcases hset i p _ hp hq with ⟨rfl, rfl⟩ | h
      · exact ⟨p, hp, Or.inl hx⟩
      · exact ⟨q, h, Or.inl hx⟩
  | wait i =>
    simp only [PrefixSystem.step] at hq
    split at hq
    · exact ⟨q, hq, Or.inl hx⟩
    · rename_i p hp
      split at hq
      · rename_i hsend
        split at hq
        · rcases hset i p _ hp hq with ⟨rfl, rfl⟩ | h
          · simp only [Option.some.injEq] at hx
            exact ⟨p, hp, Or.inr ⟨hsend, hx.symm⟩⟩
          · exact ⟨q, h, Or.inl hx⟩
        · exact ⟨q, hq, Or.inl hx⟩
      · rcases hset i p _ hp hq with ⟨rfl, rfl⟩ | h
        · exact ⟨p, hp, Or.inl hx⟩
        · exact ⟨q, h, Or.inl hx⟩
  | receive i =>
    simp only [PrefixSystem.step] at hq
    split at hq
    · rename_i p hres hp
      split at hq
      · rcases hset i p _ hp hq with ⟨rfl, rfl⟩ | h
        · exact ⟨p, hp, Or.inl hx⟩
        · exact ⟨q, h, Or.inl hx⟩
      · exact ⟨q, hq, Or.inl hx⟩
    · exact ⟨q, hq, Or.inl hx⟩
  | cancel i =>
    simp only [PrefixSystem.step] at hq
    split at hq
    · split at hq
      · exact ⟨q, hq, Or.inl hx⟩
      · rename_i p hp
        rcases hset i p _ hp hq with ⟨rfl, rfl⟩ | h
        · exact ⟨p, hp, Or.inl hx⟩
        · exact ⟨q, h, Or.inl hx⟩
    · exact ⟨q, hq, Or.inl hx⟩
  | stop => exact ⟨q, hq, Or.inl hx⟩
  | done =>
    simp only [PrefixSystem.step] at hq
    split at hq
    · exact ⟨q, hq, Or.inl hx⟩
    · exact ⟨q, hq, Or.inl hx⟩

/-- A step makes `WatchPrefix` return a revision only by receiving the offer of a watch. -/
theorem step_result (s : PrefixSystem) (a : PrefixAction) (v : Nat)
    (h : (s.step a).result = some (PrefixReturn.revision v)) :
    s.result = some (PrefixReturn.revision v) ∨
      ∃ (i : Nat) (p : PrefixWatch) (x : Int), s.watches[i]? = some p ∧ p.offer = some x ∧
        v = toUint64 x := by
  cases a with
  | bump i g =>
    simp only [PrefixSystem.step] at h
    split at h <;> exact Or.inl h
  | wait i =>
    simp only [PrefixSystem.step] at h
    split at h
    · exact Or.inl h
    · split at h
      · split at h <;> exact Or.inl h
      · exact Or.inl h
  | receive i =>
    simp only [PrefixSystem.step] at h
    split at h
    · rename_i p hres hp
      split at h
      · rename_i x hsend hoff
        simp only [Option.some.injEq, PrefixReturn.revision.injEq] at h
        exact Or.inr ⟨i, p, x, hp, hoff, h.symm⟩
      · exact Or.inl h
    · exact Or.inl h
  | cancel i =>
    simp only [PrefixSystem.step] at h
    split at h
    · split at h <;> exact Or.inl h
    · exact Or.inl h
  | stop => exact Or.inl h
  | done =>
    simp only [PrefixSystem.step] at h
    split at h
    · simp at h
    · exact Or.inl h

/-- Every offer of a run, and every revision it returns, is the revision that one of the watches
has at a moment of the run at which its `WaitNext` is past the loop. -/
theorem run_offers (s0 : PrefixSystem) (h0 : ∀ p ∈ s0.watches, p.offer = none)
    (hr0 : s0.result = none) (schedule : List PrefixAction) :
    (∀ (j : Nat) (q : PrefixWatch) (x : Int), (s0.run schedule).watches[j]? = some q →
      q.offer = some x →
      ∃ (pre post : List PrefixAction) (p : PrefixWatch), schedule = pre ++ post ∧
        (s0.run pre).watches[j]? = some p ∧ p.sys.waiter = WaitPc.send ∧
        x = p.sys.engine.cell.watch.revision) ∧
    (∀ v : Nat, (s0.run schedule).result = some (PrefixReturn.revision v) →
      ∃ (i : Nat) (pre post : List PrefixAction) (p : PrefixWatch), schedule = pre ++ post ∧
        (s0.run pre).watches[i]? = some p ∧ p.sys.waiter = WaitPc.send ∧
        v = toUint64 p.sys.engine.cell.watch.revision) := by
  induction schedule using List.reverseRecOn with
  | nil =>
    constructor
    · intro j q x hq hx
      have := h0 q (List.getElem?_mem hq)
      rw [this] at hx
      cases hx
    · intro v hv
      simp only [PrefixSystem.run, List.foldl_nil] at hv
      rw [hr0] at hv
      cases hv
  | append_singleton l a ih =>
    obtain ⟨ihA, ihB⟩ := ih
    have hA : ∀ (j : Nat) (q : PrefixWatch) (x : Int),
        (s0.run (l ++ [a])).watches[j]? = some q → q.offer = some x →
        ∃ (pre post : List PrefixAction) (p : PrefixWatch), l ++ [a] = pre ++ post ∧
          (s0.run pre).watches[j]? = some p ∧ p.sys.waiter = WaitPc.send ∧
          x = p.sys.engine.cell.watch.revision := by
      intro j q x hq hx
      rw [prefix_run_snoc] at hq
      obtain ⟨p, hp, hcase⟩ := step_offer _ a j q x hq hx
      rcases hcase with hold | ⟨hsend, hval⟩
      · obtain ⟨pre, post, p', e, h1, h2, h3⟩ := ihA j p x hp hold
        exact ⟨pre, post ++ [a], p', by rw [e, List.append_assoc], h1, h2, h3⟩
      · exact ⟨l, [a], p, rfl, hp, hsend, hval⟩
    refine ⟨hA, ?_⟩
    intro v hv
    rw [prefix_run_snoc] at hv
    rcases step_result _ a v hv with hold | ⟨i, p, x, hp, hoff, hval⟩
    · obtain ⟨i, pre, post, p', e, h1, h2, h3⟩ := ihB v hold
      exact ⟨i, pre, post ++ [a], p', by rw [e, List.append_assoc], h1, h2, h3⟩
    · obtain ⟨pre, post, p', e, h1, h2, h3⟩ := ihA i p x hp hoff
      exact ⟨i, pre, post ++ [a], p', by rw [e, List.append_assoc], h1, h2, by rw [hval, h3]⟩

/-- C13, as amended. The value `WatchPrefix` returns without error is a revision of one watch
among those resolved for the keys, the one whose `WaitNext` is received on `notify`: whatever the
watches, `waitIndex` and the interleaving of the goroutines, the value is, converted to `uint64`,
the revision which that watch has at a moment of the run at which its `WaitNext` is past its loop
and evaluates `w.revision` for the send. -/
theorem WatchPrefix_returns_first_notified (engines : List Engine) (waitIndex : Nat)
    (schedule : List PrefixAction) (v : Nat)
    (h : Confd.WatchPrefix engines waitIndex schedule = some (PrefixReturn.revision v)) :
    ∃ (i : Nat) (pre post : List PrefixAction) (p : PrefixWatch), schedule = pre ++ post ∧
      ((Confd.WatchPrefix.start engines waitIndex).run pre).watches[i]? = some p ∧
      p.sys.waiter = WaitPc.send ∧
      v = toUint64 p.sys.engine.cell.watch.revision := by
  have h0 : ∀ p ∈ (Confd.WatchPrefix.start engines waitIndex).watches, p.offer = none := by
    intro p hp
    simp only [Confd.WatchPrefix.start, List.mem_map] at hp
    obtain ⟨e, -, rfl⟩ := hp
    rfl
  exact (run_offers _ h0 rfl schedule).2 v h

/-- C13, counterexample. Two watches are resolved, at revision 1 and at revision 3, and
`waitIndex` is 0. The `WaitNext` of the first watch finds 1 greater than 0, leaves its loop and
sends 1, which `WatchPrefix` receives and returns: the revisions of the watches are then 1 and 3,
and their maximum is 3. And when a goroutine bumps the first watch after its `WaitNext` has
entered the `select` and before `WatchPrefix` receives, `WatchPrefix` returns 1 while that watch
itself is at revision 2. -/
theorem WatchPrefix_not_maximum :
    Confd.WatchPrefix [⟨watchAt 1, [BumpPc.idle]⟩, ⟨watchAt 3, [BumpPc.idle]⟩] 0
        [PrefixAction.wait 0, PrefixAction.wait 0, PrefixAction.receive 0]
      = some (PrefixReturn.revision 1) ∧
    ((Confd.WatchPrefix.start [⟨watchAt 1, [BumpPc.idle]⟩, ⟨watchAt 3, [BumpPc.idle]⟩] 0).run
        [PrefixAction.wait 0, PrefixAction.wait 0, PrefixAction.receive 0]).revisions = [1, 3] ∧
    aggregateRevision
      (((Confd.WatchPrefix.start [⟨watchAt 1, [BumpPc.idle]⟩, ⟨watchAt 3, [BumpPc.idle]⟩] 0).run
        [PrefixAction.wait 0, PrefixAction.wait 0, PrefixAction.receive 0]).watches.map
          (fun p => p.sys.engine.cell)) = some 3 ∧
    Confd.WatchPrefix [⟨watchAt 1, [BumpPc.idle]⟩, ⟨watchAt 3, [BumpPc.idle]⟩] 0
        [PrefixAction.wait 0, PrefixAction.wait 0, PrefixAction.bump 0 0, PrefixAction.bump 0 0,
          PrefixAction.receive 0]
      = some (PrefixReturn.revision 1) ∧
    ((Confd.WatchPrefix.start [⟨watchAt 1, [BumpPc.idle]⟩, ⟨watchAt 3, [BumpPc.idle]⟩] 0).run
        [PrefixAction.wait 0, PrefixAction.wait 0, PrefixAction.bump 0 0, PrefixAction.bump 0 0,
          PrefixAction.receive 0]).revisions = [2, 3] := by
  decide

theorem WatchPrefix_returns_first_notified_witness :
    Confd.WatchPrefix [⟨watchAt 1, [BumpPc.idle]⟩, ⟨watchAt 3, [BumpPc.idle]⟩] 0
        [PrefixAction.wait 1, PrefixAction.wait 1, PrefixAction.receive 1]
      = some (PrefixReturn.revision 3) ∧
    ∃ (i : Nat) (pre post : List PrefixAction) (p : PrefixWatch),
      [PrefixAction.wait 1, PrefixAction.wait 1, PrefixAction.receive 1] = pre ++ post ∧
      ((Confd.WatchPrefix.start [⟨watchAt 1, [BumpPc.idle]⟩, ⟨watchAt 3, [BumpPc.idle]⟩] 0).run
        pre).watches[i]? = some p ∧
      p.sys.waiter = WaitPc.send ∧
      3 = toUint64 p.sys.engine.cell.watch.revision :=
  ⟨by decide,
    WatchPrefix_returns_first_notified
      [⟨watchAt 1, [BumpPc.idle]⟩, ⟨watchAt 3, [BumpPc.idle]⟩] 0
      [PrefixAction.wait 1, PrefixAction.wait 1, PrefixAction.receive 1] 3 (by decide)⟩

end Polaris
